import Mathlib

/-!
Verification of the S3 artifact resolver and download client
(`commands/s3_client.go`).

The Go code is shallowly embedded:

* The regular expressions built with `fmt.Sprintf` + `regexp.MustCompile`
  are modelled by a small regex abstract syntax (`RE`), a parser `compile`
  over the subset of Go regexp syntax that the client's patterns use
  (literal characters, escaped metacharacters, `.`, groups, greedy and
  lazy `*` `+` `?`, with `^`-anchored patterns), and a backtracking
  matcher `matchRE` with Perl-style priorities, which is what Go's
  `FindStringSubmatch`/`MatchString` implement for these patterns.
  `regexp.MustCompile` panicking on a malformed pattern is modelled by
  `compile` returning `none`; client operations then return `none`.
* `filepath.Match` is modelled by `filepathMatch`: a syntax check
  `badPattern` (Go's `ErrBadPattern`) plus a total matcher `globMatch`
  implementing `*` `?` `[...]` and `\`-escapes over non-separator
  characters.
* The stow gateway (Dial / Container / Walk / Item / Size / Open) is the
  external blob-store boundary; one call's observable outcome is passed
  in as a `ListOutcome` (for listing) or an `OpenOutcome` (for opening a
  blob), exactly the cases the Go code distinguishes.
* Errors are the Go error strings, built exactly as the `fmt.Errorf` /
  `fmt.Sprintf` calls build them.
-/

deriving instance DecidableEq for Except

namespace OmS3

/-- The characters `regexp.QuoteMeta` escapes (Go's `specialBytes`). -/
def isSpecialChar (c : Char) : Bool :=
  c = '\\' || c = '.' || c = '+' || c = '*' || c = '?' || c = '(' || c = ')' ||
  c = '|' || c = '[' || c = ']' || c = '{' || c = '}' || c = '^' || c = '$'

/-- `regexp.QuoteMeta`: a backslash before every special character. -/
def quoteMeta : List Char → List Char
  | [] => []
  | c :: cs => if isSpecialChar c then '\\' :: c :: quoteMeta cs else c :: quoteMeta cs

/-- `strings.Trim(path, "/")`: all leading and trailing slashes removed. -/
def trimSlashes (cs : List Char) : List Char :=
  ((cs.dropWhile (fun c => c = '/')).reverse.dropWhile (fun c => c = '/')).reverse

/-- Regex abstract syntax for the subset of Go regexp the client builds.
The `Bool` on `star` and `opt` is `true` for the lazy (non-greedy) form. -/
inductive RE where
  | eps : RE
  | ch : Char → RE
  | dot : RE
  | cat : RE → RE → RE
  | alt : RE → RE → RE
  | star : Bool → RE → RE
  | opt : Bool → RE → RE
  | group : RE → RE

/-- Characters that begin a repetition operator. -/
def postfixStart (c : Char) : Bool := c = '*' || c = '+' || c = '?'

/-- No repetition operator immediately follows (a doubled repetition such
as `a**` is an error in Go regexp). -/
def noPostB : List Char → Bool
  | [] => true
  | c :: _ => !postfixStart c

/-- After a repetition operator: an optional `?` makes it lazy; a further
repetition operator is malformed. -/
def finishPost (mkLazy mkGreedy : RE) : List Char → Option (RE × List Char)
  | [] => some (mkGreedy, [])
  | c :: rest =>
    if c = '?' then (if noPostB rest then some (mkLazy, rest) else none)
    else if postfixStart c then none
    else some (mkGreedy, c :: rest)

/-- Apply an optional repetition operator to a parsed atom. -/
def applyPostfix (a : RE) : List Char → Option (RE × List Char)
  | [] => some (a, [])
  | c :: rest =>
    if c = '*' then finishPost (RE.star true a) (RE.star false a) rest
    else if c = '+' then
      finishPost (RE.cat a (RE.star true a)) (RE.cat a (RE.star false a)) rest
    else if c = '?' then finishPost (RE.opt true a) (RE.opt false a) rest
    else some (a, c :: rest)

/-- Parse a sequence of atoms with their repetition operators
(right-nested `cat`, ending in `eps`), stopping at `)` or at the end of
the pattern.  An atom is an escaped metacharacter, `.`, a capturing
group, or a plain character; constructs outside the embedded subset
(classes, alternation, unescapable escapes, repetition bounds) are
rejected.  Structural on fuel; every recursive call is on a strictly
shorter pattern, so fuel `length + 1` is always enough. -/
def parseSeq : Nat → List Char → Option (RE × List Char)
  | 0, _ => none
  | fuel + 1, cs =>
    match cs with
    | [] => some (RE.eps, [])
    | c :: rest =>
      if c = ')' then some (RE.eps, c :: rest)
      else
        let atomRes : Option (RE × List Char) :=
          if c = '\\' then
            match rest with
            | [] => none
            | d :: rest2 => if isSpecialChar d then some (RE.ch d, rest2) else none
          else if c = '.' then some (RE.dot, rest)
          else if c = '(' then
            (parseSeq fuel rest).bind (fun pr =>
              match pr.2 with
              | ')' :: rest3 => some (RE.group pr.1, rest3)
              | _ => none)
          else if isSpecialChar c then none
          else some (RE.ch c, rest)
        atomRes.bind (fun ar =>
          (applyPostfix ar.1 ar.2).bind (fun pr =>
            (parseSeq fuel pr.2).map (fun br => (RE.cat pr.1 br.1, br.2))))

/-- Compile an anchored pattern (the client's patterns all start with `^`).
`none` models `regexp.MustCompile` panicking on a malformed pattern, and
also rejects patterns outside the embedded subset. -/
def compile (cs : List Char) : Option RE :=
  match cs with
  | '^' :: rest =>
    (parseSeq (rest.length + 1) rest).bind (fun pr =>
      match pr.2 with
      | [] => some pr.1
      | _ => none)
  | _ => none

/-- Combine the capture of group 1 found in two successive pieces of a
match (the client's patterns have at most one group). -/
def ocomb : Option (List Char) → Option (List Char) → Option (List Char)
  | some x, _ => some x
  | none, y => y

/-- The number of constructors of a regex, used to size the matcher's
fuel. -/
def sizeRE : RE → Nat
  | RE.eps => 1
  | RE.ch _ => 1
  | RE.dot => 1
  | RE.cat a b => 1 + sizeRE a + sizeRE b
  | RE.alt a b => 1 + sizeRE a + sizeRE b
  | RE.star _ a => 1 + sizeRE a
  | RE.opt _ a => 1 + sizeRE a
  | RE.group a => 1 + sizeRE a

/-- Backtracking matcher at the start of `s`: the list of all ways the
regex can match a prefix of `s`, as (remaining input, group-1 capture),
in Perl/Go submatch priority order (the head is the match Go reports).
Structural on fuel, spending one unit per constructor step; a repetition
body must consume input on every iteration, so along any path at most
`sizeRE re` steps happen between two input consumptions and
`(s.length + 2) * (sizeRE re + 1)` fuel is always enough. -/
def matchRE : Nat → RE → List Char → List (List Char × Option (List Char))
  | 0, _, _ => []
  | fuel + 1, re, s =>
    match re with
    | RE.eps => [(s, none)]
    | RE.ch c =>
      match s with
      | [] => []
      | d :: rest => if d = c then [(rest, none)] else []
    | RE.dot =>
      match s with
      | [] => []
      | d :: rest => if d = '\n' then [] else [(rest, none)]
    | RE.cat a b =>
      (matchRE fuel a s).flatMap (fun p =>
        (matchRE fuel b p.1).map (fun q => (q.1, ocomb p.2 q.2)))
    | RE.alt a b => matchRE fuel a s ++ matchRE fuel b s
    | RE.opt lz a =>
      if lz then (s, none) :: matchRE fuel a s else matchRE fuel a s ++ [(s, none)]
    | RE.star lz a =>
      let conts := ((matchRE fuel a s).filter (fun p => p.1.length < s.length)).flatMap
        (fun p => (matchRE fuel (RE.star lz a) p.1).map (fun q => (q.1, ocomb p.2 q.2)))
      if lz then (s, none) :: conts else conts ++ [(s, none)]
    | RE.group a =>
      (matchRE fuel a s).map (fun p => (p.1, some (s.take (s.length - p.1.length))))

/-- Match with always-sufficient fuel. -/
def matchTop (r : RE) (s : List Char) : List (List Char × Option (List Char)) :=
  matchRE ((s.length + 2) * (sizeRE r + 1)) r s

/-- `Regexp.MatchString` for an anchored pattern. -/
def matchB (r : RE) (s : List Char) : Bool := !(matchTop r s).isEmpty

/-- The pattern text `GetLatestProductFile` builds:
`fmt.Sprintf("^/?%s/?\[%s,%s\]", regexp.QuoteMeta(strings.Trim(path, "/")), slug, regexp.QuoteMeta(version))`.
The path prefix and the version go through `QuoteMeta`; the slug is
interpolated as raw regex text. -/
def lookupPat (path slug version : List Char) : List Char :=
  '^' :: '/' :: '?' :: (quoteMeta (trimSlashes path) ++
    '/' :: '?' :: '\\' :: '[' :: (slug ++ ',' :: (quoteMeta version ++ ['\\', ']'])))

/-- The pattern text `GetAllProductVersions` builds:
`fmt.Sprintf("^/?%s/?\[%s,(.*?)\]", regexp.QuoteMeta(strings.Trim(path, "/")), slug)`. -/
def listingPat (path slug : List Char) : List Char :=
  '^' :: '/' :: '?' :: (quoteMeta (trimSlashes path) ++
    '/' :: '?' :: '\\' :: '[' :: (slug ++ ',' :: '(' :: '.' :: '*' :: '?' :: ')' :: ['\\', ']']))

/-- `validFile.MatchString(key)` in `GetLatestProductFile` (`false` is
unreachable in Go: `MustCompile` panics first on a malformed pattern). -/
def lookupMatchB (path slug version key : String) : Bool :=
  (compile (lookupPat path.data slug.data version.data)).elim false
    (fun r => matchB r key.data)

/-- `productFileCompiledRegex.FindStringSubmatch(key)` in
`GetAllProductVersions`: `some` of the group-1 capture when the key
matches, `none` when it does not. -/
def extractVersion (path slug key : String) : Option String :=
  (compile (listingPat path.data slug.data)).bind (fun r =>
    ((matchTop r key.data).head?).map (fun pr => String.mk (pr.2.getD [])))

/-! ## `filepath.Match` and `filepath.Base` -/

/-- Go's `getEsc` inside a character class: the next class character;
`none` (`ErrBadPattern`) at the end of the pattern, at `-`, at `]`, or at
a trailing backslash. -/
def getEscClass : List Char → Option (Char × List Char)
  | [] => none
  | '-' :: _ => none
  | ']' :: _ => none
  | '\\' :: c :: rest => some (c, rest)
  | ['\\'] => none
  | c :: rest => some (c, rest)

/-- Parse the ranges of a character class, after `[` (and an optional
`^`): `lo-hi` pairs, a single character standing for `c-c`.  `none` is a
malformed class (`ErrBadPattern`): unterminated, empty, or with a bad
range.  Fuel is the remaining pattern length plus one, which is always
enough since every step consumes at least one character. -/
def parseClassLoop : Nat → List Char → List (Char × Char) →
    Option (List (Char × Char) × List Char)
  | 0, _, _ => none
  | fuel + 1, cs, acc =>
    match cs with
    | ']' :: rest => if acc.isEmpty then none else some (acc.reverse, rest)
    | _ =>
      match getEscClass cs with
      | none => none
      | some (lo, rest) =>
        match rest with
        | '-' :: rest2 =>
          match getEscClass rest2 with
          | none => none
          | some (hi, rest3) => parseClassLoop fuel rest3 ((lo, hi) :: acc)
        | _ => parseClassLoop fuel rest ((lo, lo) :: acc)

/-- Parse a character class after its `[`: negation flag, ranges, rest of
the pattern. -/
def parseClass (cs : List Char) : Option (Bool × List (Char × Char) × List Char) :=
  match cs with
  | '^' :: rest =>
    match parseClassLoop (rest.length + 1) rest [] with
    | none => none
    | some (rs, rest2) => some (true, rs, rest2)
  | _ =>
    match parseClassLoop (cs.length + 1) cs [] with
    | none => none
    | some (rs, rest2) => some (false, rs, rest2)

/-- Membership of a character in a (possibly negated) class (Go's class
matching puts no separator restriction on the matched character). -/
def inClassB (neg : Bool) (rs : List (Char × Char)) (c : Char) : Bool :=
  let m := rs.any (fun r => r.1 ≤ c && c ≤ r.2)
  if neg then !m else m

/-- `filepath.Match` on a well-formed pattern: `*` and `?` match
non-separator characters, `[...]` classes, `\` escapes the next
character.  `*` tries the rest of the pattern at every suffix reachable
without crossing a separator.  Structural on fuel; every step consumes a
pattern or an input character, so `ps.length + n.length + 1` fuel is
always enough.  (On a malformed pattern `filepathMatch` reports the
error instead of consulting this function.) -/
def globMatchF : Nat → List Char → List Char → Bool
  | 0, _, _ => false
  | fuel + 1, ps, n =>
    match ps with
    | [] => n.isEmpty
    | '*' :: ps2 =>
      globMatchF fuel ps2 n ||
        (match n with
         | [] => false
         | c :: n2 => c ≠ '/' && globMatchF fuel ('*' :: ps2) n2)
    | '?' :: ps2 =>
      match n with
      | [] => false
      | c :: n2 => c ≠ '/' && globMatchF fuel ps2 n2
    | '\\' :: c :: ps2 =>
      match n with
      | [] => false
      | d :: n2 => d = c && globMatchF fuel ps2 n2
    | '[' :: ps2 =>
      match parseClass ps2 with
      | none => false
      | some (neg, rs, rest) =>
        match n with
        | [] => false
        | c :: n2 => inClassB neg rs c && globMatchF fuel rest n2
    | c :: ps2 =>
      match n with
      | [] => false
      | d :: n2 => d = c && globMatchF fuel ps2 n2

/-- `filepath.Match`'s matcher with always-sufficient fuel. -/
def globMatch (ps n : List Char) : Bool :=
  globMatchF (ps.length + n.length + 1) ps n

/-- Whether a glob pattern is malformed (`filepath.ErrBadPattern`): a
trailing backslash or a malformed character class.  Fuel as in
`parseClassLoop`. -/
def badPatternF : Nat → List Char → Bool
  | 0, _ => true
  | fuel + 1, cs =>
    match cs with
    | [] => false
    | ['\\'] => true
    | '\\' :: _ :: ps => badPatternF fuel ps
    | '[' :: ps =>
      match parseClass ps with
      | none => true
      | some (_, _, rest) => badPatternF fuel rest
    | _ :: ps => badPatternF fuel ps

/-- Whether a glob pattern is malformed. -/
def badPattern (cs : List Char) : Bool := badPatternF (cs.length + 1) cs

/-- `filepath.Match(pattern, name)`: `(false, ErrBadPattern)` on a
malformed pattern, otherwise `(match, nil)`. -/
def filepathMatch (pat name : List Char) : Except Unit Bool :=
  if badPattern pat then Except.error () else Except.ok (globMatch pat name)

/-- `filepath.Base`: `.` for the empty path, `/` for all-separator paths,
otherwise the last element after trailing separators are removed. -/
def goBase (s : String) : String :=
  if s.data.isEmpty then "."
  else
    let trimmed := (s.data.reverse.dropWhile (fun c => c = '/')).reverse
    if trimmed.isEmpty then "/"
    else String.mk ((trimmed.reverse.takeWhile (fun c => c ≠ '/')).reverse)

/-- `matched, _ := filepath.Match(glob, filepath.Base(f)); matched`: the
error is discarded, so a reported pattern error counts as no match. -/
def globArgMatchB (glob f : String) : Bool :=
  match filepathMatch glob.data (goBase f).data with
  | Except.error _ => false
  | Except.ok b => b

/-! ## The client, the gateway boundary, and the operations -/

/-- The part of `S3Client` the embedded operations read: the configured
bucket-internal path and the configured endpoint (the `"endpoint"` entry
of the stow config, `""` when not configured). -/
structure S3ClientM where
  path : String
  endpoint : String

/-- The observable outcome of one listing interaction with the stow
gateway (`Dial`, `Container`, `Walk` collecting `item.ID()`), the cases
`listFiles` distinguishes. -/
inductive ListOutcome where
  | dialErr : String → ListOutcome
  | containerErr : String → ListOutcome
  | walkErr : String → ListOutcome
  | keys : List String → ListOutcome

/-- `InvalidEndpointErrorMessageTemplate = "Could not reach provided endpoint: '%s': %s"`
applied to the endpoint and the underlying error text. -/
def invalidEndpointMessage (endpoint errMsg : String) : String :=
  "Could not reach provided endpoint: '" ++ endpoint ++ "': " ++ errMsg

/-- `listFiles`: dial, resolve the container (re-classifying the failure
when an endpoint is configured), walk all keys; an empty listing is the
error `bucket contains no files`. -/
def listFiles (c : S3ClientM) (o : ListOutcome) : Except String (List String) :=
  match o with
  | ListOutcome.dialErr e => Except.error e
  | ListOutcome.containerErr e =>
    if c.endpoint ≠ "" then Except.error (invalidEndpointMessage c.endpoint e)
    else Except.error e
  | ListOutcome.walkErr e => Except.error e
  | ListOutcome.keys paths =>
    if paths.isEmpty then Except.error "bucket contains no files" else Except.ok paths

/-- The version-collecting loop of `GetAllProductVersions`: extract a
version from each file name in order, appending it the first time it is
seen (`versionFound` is the `seen` accumulator). -/
def collectVersions (extract : String → Option String) :
    List String → List String → List String
  | [], _ => []
  | f :: fs, seen =>
    match extract f with
    | none => collectVersions extract fs seen
    | some v =>
      if v ∈ seen then collectVersions extract fs seen
      else v :: collectVersions extract fs (v :: seen)

/-- `fmt.Errorf("no files matching pivnet-product-slug %s found", slug)`. -/
def noVersionsMessage (slug : String) : String :=
  "no files matching pivnet-product-slug " ++ slug ++ " found"

/-- `GetAllProductVersions`.  The outer `Option` models
`regexp.MustCompile` panicking on a slug that makes the pattern
malformed (`none`); otherwise `some` of the Go result. -/
def getAllProductVersions (c : S3ClientM) (o : ListOutcome) (slug : String) :
    Option (Except String (List String)) :=
  match listFiles c o with
  | Except.error e => some (Except.error e)
  | Except.ok files =>
    if (compile (listingPat c.path.data slug.data)).isSome then
      let versions := collectVersions (extractVersion c.path slug) files []
      if versions.isEmpty then some (Except.error (noVersionsMessage slug))
      else some (Except.ok versions)
    else none

/-- The result of a successful resolution: the full key of the artifact. -/
structure FileArtifact where
  Name : String
deriving DecidableEq

/-- The `no product files with expected prefix ...` error message of
`GetLatestProductFile`. -/
def noPrefixMessage (slug version : String) : String :=
  "no product files with expected prefix [" ++ slug ++ "," ++ version ++
    "] found. Please ensure the file you're trying to download was initially persisted from Pivotal Network net using an appropriately configured download-product command"

/-- `strings.Join`. -/
def goJoin (sep : String) : List String → String
  | [] => ""
  | [s] => s
  | s :: rest => s ++ sep ++ goJoin sep rest

/-- The `matches multiple files` error message of `GetLatestProductFile`,
listing every glob match joined by newline-and-indent. -/
def ambiguousMessage (glob : String) (ms : List String) : String :=
  "the glob '" ++ glob ++
    "' matches multiple files. Write your glob to match exactly one of the following:\n  " ++
    goJoin "\n  " ms

/-- The `matches no file` error message of `GetLatestProductFile`. -/
def globNoneMessage (glob : String) : String :=
  "the glob '" ++ glob ++ "' matches no file"

/-- The keys matching the exact `[slug,version]` pattern, in listing
order (`prefixedFilepaths`). -/
def prefixedOf (c : S3ClientM) (files : List String) (slug version : String) :
    List String :=
  files.filter (fun f => lookupMatchB c.path slug version f)

/-- The prefixed keys whose base name matches the glob, in listing order
(`globMatchedFilepaths`). -/
def globMatchedOf (c : S3ClientM) (files : List String) (slug version glob : String) :
    List String :=
  (prefixedOf c files slug version).filter (fun f => globArgMatchB glob f)

/-- `GetLatestProductFile`.  The outer `Option` models
`regexp.MustCompile` panicking (`none`); otherwise `some` of the Go
result. -/
def getLatestProductFile (c : S3ClientM) (o : ListOutcome) (slug version glob : String) :
    Option (Except String FileArtifact) :=
  match listFiles c o with
  | Except.error e => some (Except.error e)
  | Except.ok files =>
    if (compile (lookupPat c.path.data slug.data version.data)).isSome then
      let pfd := prefixedOf c files slug version
      if pfd.isEmpty then some (Except.error (noPrefixMessage slug version))
      else
        let gm := pfd.filter (fun f => globArgMatchB glob f)
        if gm.length > 1 then some (Except.error (ambiguousMessage glob gm))
        else
          match gm with
          | [] => some (Except.error (globNoneMessage glob))
          | g :: _ => some (Except.ok ⟨g⟩)
    else none

/-! ## The download path -/

/-- The progress bar's data contract: total as set by `SetTotal64`,
cumulative bytes reported by the proxy reader, and whether `Finish` ran. -/
structure Bar where
  total : Int
  current : Nat
  finished : Bool
deriving DecidableEq

/-- An opened blob stream: the bytes it delivers (in order) and what ends
it — `none` is a clean end of stream, `some e` is a read error after the
delivered bytes (`io.Copy` then returns that error). -/
structure BlobStream where
  bytes : List Nat
  readErr : Option String
deriving DecidableEq

/-- The observable outcome of one open interaction with the stow gateway
(`Dial`, `Container`, `Item`, `Size`, `Open`), the cases
`initializeBlobReader` distinguishes. -/
inductive OpenOutcome where
  | dialErr : String → OpenOutcome
  | containerErr : String → OpenOutcome
  | itemErr : String → OpenOutcome
  | sizeErr : String → OpenOutcome
  | openErr : String → OpenOutcome
  | opened : BlobStream → Int → OpenOutcome

/-- `initializeBlobReader`: dial, resolve the container (re-classifying
the failure when an endpoint is configured), look up the item, read its
size, open it. -/
def initializeBlobReader (c : S3ClientM) (o : OpenOutcome) :
    Except String (BlobStream × Int) :=
  match o with
  | OpenOutcome.dialErr e => Except.error e
  | OpenOutcome.containerErr e =>
    if c.endpoint ≠ "" then Except.error (invalidEndpointMessage c.endpoint e)
    else Except.error e
  | OpenOutcome.itemErr e => Except.error e
  | OpenOutcome.sizeErr e => Except.error e
  | OpenOutcome.openErr e => Except.error e
  | OpenOutcome.opened st size => Except.ok (st, size)

/-- What one call of `DownloadProductToFile` leaves behind: its return
value, the bytes written to the destination file, and the progress bar
(`none` when the open failed before a bar was created). -/
structure DownloadResult where
  outcome : Except String Unit
  written : List Nat
  bar : Option Bar

/-- `progressBar.Finish()`. -/
def finishBar (b : Bar) : Bar := { b with finished := true }

/-- `DownloadProductToFile`: open the blob, start a progress bar sized by
the reported size, copy the proxied stream into the destination
(`io.Copy` writes the delivered bytes and reports the stream's error, if
any), with `defer progressBar.Finish()` running on both the success and
the error path. -/
def downloadProductToFile (c : S3ClientM) (o : OpenOutcome) : DownloadResult :=
  match initializeBlobReader c o with
  | Except.error e => ⟨Except.error e, [], none⟩
  | Except.ok (st, size) =>
    let bar0 : Bar := { total := size, current := 0, finished := false }
    let bar1 : Bar := { bar0 with current := bar0.current + st.bytes.length }
    match st.readErr with
    | some e => ⟨Except.error e, st.bytes, some (finishBar bar1)⟩
    | none => ⟨Except.ok (), st.bytes, some (finishBar bar1)⟩

/-- `DownloadProductStemcell`: unconditionally unsupported. -/
def downloadProductStemcell : Except String Unit :=
  Except.error "downloading stemcells for s3 is not supported at this time"

/-! ## Auxiliary notions used by the claims -/

/-- The needle occurs as a contiguous substring of the hay. -/
def containsSub (needle hay : List Char) : Bool :=
  hay.tails.any (fun t => needle.isPrefixOf t)

/-- A chain of literal characters in front of a continuation regex:
`litChain cs k` is the regex matching the literal text `cs` and then `k`. -/
def litChain : List Char → RE → RE
  | [], k => k
  | c :: cs, k => RE.cat (RE.ch c) (litChain cs k)

/-- The regex the lookup pattern denotes when the slug has no regex
metacharacters: optional slash, the literal trimmed path, optional
slash, then the literal `[slug,version]` tag (in the right-nested shape
the parser produces). -/
def lookupAST (p s v : List Char) : RE :=
  RE.cat (RE.opt false (RE.ch '/'))
    (litChain p
      (RE.cat (RE.opt false (RE.ch '/'))
        (RE.cat (RE.ch '[')
          (litChain s
            (RE.cat (RE.ch ',')
              (litChain v (RE.cat (RE.ch ']') RE.eps)))))))

/-- A string with no regex metacharacters at all. -/
def regexSafe (s : String) : Bool := s.data.all (fun c => !isSpecialChar c)

/-- Modelled from the spec: "Prefix and slug are treated as literal text
(any regex metacharacters in them must be escaped, not interpreted) —
version is ... a literal exact match (lookup mode)".  A key counts as a
prefix match for `(slug, version)` exactly when, after an optional
leading slash, it continues with the literal trimmed path, an optional
slash, and the literal text `[slug,version]`. -/
def specLookupLiteral (path slug version key : String) : Bool :=
  let p := trimSlashes path.data
  let core := '[' :: (slug.data ++ ',' :: (version.data ++ [']']))
  List.isPrefixOf (p ++ core) key.data ||
  List.isPrefixOf (p ++ '/' :: core) key.data ||
  List.isPrefixOf ('/' :: (p ++ core)) key.data ||
  List.isPrefixOf ('/' :: (p ++ '/' :: core)) key.data

/-- A closing `]` occurs before any newline.  This is exactly when the
lazy capture `(.*?)` — whose `.` does not match a newline — can reach a
closing `]` in the rest of the key. -/
def hasTagClose : List Char → Bool
  | [] => false
  | c :: t => if c = ']' then true else if c = '\n' then false else hasTagClose t

/-- Length of the newline-free run at the front of the input: the
largest number of characters `.` can consume. -/
def nlFreeLen : List Char → Nat
  | [] => 0
  | c :: t => if c = '\n' then 0 else nlFreeLen t + 1

/-- The tail of the listing regex after the literal `[slug,`: the lazy
capture group then the literal `]` (in the shape the parser produces for
`(.*?)\]`). -/
def tgRE : RE :=
  RE.cat (RE.group (RE.cat (RE.star true RE.dot) RE.eps))
    (RE.cat (RE.ch ']') RE.eps)

/-- The regex the listing pattern denotes when the slug has no regex
metacharacters: optional slash, the literal trimmed path, optional
slash, the literal `[slug,`, then the lazy capture closed by a literal
`]` (in the right-nested shape the parser produces). -/
def listingAST (p s : List Char) : RE :=
  RE.cat (RE.opt false (RE.ch '/'))
    (litChain p
      (RE.cat (RE.opt false (RE.ch '/'))
        (RE.cat (RE.ch '[')
          (litChain s
            (RE.cat (RE.ch ',') tgRE)))))

/-- One literal alternative of the listing check: the key starts with the
literal text `u` and a closing `]` then occurs before any newline. -/
def listingHit (u key : List Char) : Bool :=
  u.isPrefixOf key && hasTagClose (key.drop u.length)

/-- Modelled from the spec: "Prefix and slug are treated as literal text
(any regex metacharacters in them must be escaped, not interpreted) —
version is a capture group (listing mode)".  A key counts as a listing
match for `slug` exactly when, after an optional leading slash, it
continues with the literal trimmed path, an optional slash, and the
literal text `[slug,`, and a closing `]` then occurs before any newline
(the capture's `.` cannot cross a newline in Go regexp). -/
def specListingLiteral (path slug key : String) : Bool :=
  let p := trimSlashes path.data
  let cl := '[' :: (slug.data ++ [','])
  listingHit (p ++ cl) key.data ||
  listingHit (p ++ '/' :: cl) key.data ||
  listingHit ('/' :: (p ++ cl)) key.data ||
  listingHit ('/' :: (p ++ '/' :: cl)) key.data

/-! ## Helper lemmas about substring containment -/

theorem isPrefixOf_self_append (xs ys : List Char) : xs.isPrefixOf (xs ++ ys) = true := by
  rw [List.isPrefixOf_iff_prefix]
  exact List.prefix_append xs ys

theorem containsSub_self_append (n b : List Char) : containsSub n (n ++ b) = true := by
  unfold containsSub
  rw [List.any_eq_true]
  exact ⟨n ++ b, (List.mem_tails _ _).2 (List.suffix_refl _), isPrefixOf_self_append n b⟩

theorem containsSub_refl (n : List Char) : containsSub n n = true := by
  have h := containsSub_self_append n []
  simpa using h

theorem containsSub_append_left (s : List Char) {n t : List Char}
    (h : containsSub n t = true) : containsSub n (s ++ t) = true := by
  unfold containsSub at h ⊢
  rw [List.any_eq_true] at h ⊢
  obtain ⟨u, hu, hp⟩ := h
  exact ⟨u, (List.mem_tails _ _).2 (((List.mem_tails _ _).1 hu).trans (List.suffix_append s t)),
    hp⟩

/-! ## Claim theorems: the gateway error paths and the download path -/

/-- Claim C7: for a container-resolution failure in `listFiles` or in
`initializeBlobReader`, a configured (non-empty) endpoint makes the
returned error the `InvalidEndpoint` re-classification embedding the
configured endpoint and the underlying error text; with no endpoint
configured, the underlying error is returned unchanged. -/
theorem c7_container_error_reclassified (c : S3ClientM) (e : String) :
    (c.endpoint ≠ "" →
      listFiles c (ListOutcome.containerErr e) =
        Except.error (invalidEndpointMessage c.endpoint e) ∧
      initializeBlobReader c (OpenOutcome.containerErr e) =
        Except.error (invalidEndpointMessage c.endpoint e)) ∧
    (c.endpoint = "" →
      listFiles c (ListOutcome.containerErr e) = Except.error e ∧
      initializeBlobReader c (OpenOutcome.containerErr e) = Except.error e) := by
  constructor <;> intro h <;> simp [listFiles, initializeBlobReader, h]

theorem c7_witness :
    (listFiles ⟨"prod", "http://ep"⟩ (ListOutcome.containerErr "boom") =
        Except.error (invalidEndpointMessage "http://ep" "boom") ∧
      initializeBlobReader ⟨"prod", "http://ep"⟩ (OpenOutcome.containerErr "boom") =
        Except.error (invalidEndpointMessage "http://ep" "boom")) ∧
    (listFiles ⟨"prod", ""⟩ (ListOutcome.containerErr "boom") = Except.error "boom" ∧
      initializeBlobReader ⟨"prod", ""⟩ (OpenOutcome.containerErr "boom") =
        Except.error "boom") :=
  ⟨(c7_container_error_reclassified ⟨"prod", "http://ep"⟩ "boom").1 (by decide),
    (c7_container_error_reclassified ⟨"prod", ""⟩ "boom").2 rfl⟩

/-- Claim C8: for a successfully opened source stream of `N` bytes the
download writes exactly those `N` bytes, in order, to the destination and
succeeds; and when the size reported upfront is `N`, the progress bar's
final reported value equals `N`. -/
theorem c8_download_byte_for_byte (c : S3ClientM) (bs : List Nat) (size : Int) :
    (downloadProductToFile c (OpenOutcome.opened ⟨bs, none⟩ size)).written = bs ∧
    (downloadProductToFile c (OpenOutcome.opened ⟨bs, none⟩ size)).outcome = Except.ok () ∧
    (downloadProductToFile c (OpenOutcome.opened ⟨bs, none⟩ (bs.length : Int))).bar =
      some ⟨(bs.length : Int), bs.length, true⟩ := by
  refine ⟨rfl, rfl, ?_⟩
  simp [downloadProductToFile, initializeBlobReader, finishBar]

/-- Claim C9: once the blob stream was successfully opened, the progress
bar is finished on every exit path, whether the byte copy succeeds or the
stream ends in a read error. -/
theorem c9_progress_always_finished (c : S3ClientM) (st : BlobStream) (size : Int) :
    ∃ b : Bar, (downloadProductToFile c (OpenOutcome.opened st size)).bar = some b ∧
      b.finished = true := by
  obtain ⟨bs, err⟩ := st
  cases err <;> exact ⟨_, rfl, rfl⟩

/-! ## Shape lemmas for the resolver operations -/

theorem getLatestProductFile_shape (c : S3ClientM) (files : List String)
    (slug version glob : String) (hne : files ≠ [])
    (hc : (compile (lookupPat c.path.data slug.data version.data)).isSome = true) :
    getLatestProductFile c (ListOutcome.keys files) slug version glob =
      (if prefixedOf c files slug version = [] then
        some (Except.error (noPrefixMessage slug version))
      else if (globMatchedOf c files slug version glob).length > 1 then
        some (Except.error (ambiguousMessage glob (globMatchedOf c files slug version glob)))
      else
        match globMatchedOf c files slug version glob with
        | [] => some (Except.error (globNoneMessage glob))
        | g :: _ => some (Except.ok ⟨g⟩)) := by
  have hl : listFiles c (ListOutcome.keys files) = Except.ok files := by
    simp [listFiles, List.isEmpty_iff, hne]
  rw [getLatestProductFile, hl]
  simp only [hc, if_true]
  rw [globMatchedOf]
  by_cases hp : prefixedOf c files slug version = [] <;>
    simp [List.isEmpty_iff, hp]

theorem getAllProductVersions_shape (c : S3ClientM) (files : List String) (slug : String)
    (hne : files ≠ [])
    (hc : (compile (listingPat c.path.data slug.data)).isSome = true) :
    getAllProductVersions c (ListOutcome.keys files) slug =
      (if collectVersions (extractVersion c.path slug) files [] = [] then
        some (Except.error (noVersionsMessage slug))
      else some (Except.ok (collectVersions (extractVersion c.path slug) files []))) := by
  have hl : listFiles c (ListOutcome.keys files) = Except.ok files := by
    simp [listFiles, List.isEmpty_iff, hne]
  rw [getAllProductVersions, hl]
  simp only [hc, if_true]
  by_cases hv : collectVersions (extractVersion c.path slug) files [] = [] <;>
    simp [List.isEmpty_iff, hv]

/-! ## Claim theorems: resolution of a single file -/

/-- Claim C1: for every key listing, slug, version and glob (with the
lookup pattern compiling, since `regexp.MustCompile` panics otherwise),
`GetLatestProductFile` returns a `FileArtifact` if and only if exactly
one of the keys matching the exact `[slug,version]` pattern has a base
filename matching the glob, and the returned artifact's `Name` is
exactly that key — it never returns one of several glob matches. -/
theorem c1_unique_glob_match (c : S3ClientM) (files : List String)
    (slug version glob : String)
    (hc : (compile (lookupPat c.path.data slug.data version.data)).isSome = true) :
    ((∃ fa, getLatestProductFile c (ListOutcome.keys files) slug version glob =
        some (Except.ok fa)) ↔
      (globMatchedOf c files slug version glob).length = 1) ∧
    (∀ fa, getLatestProductFile c (ListOutcome.keys files) slug version glob =
        some (Except.ok fa) →
      globMatchedOf c files slug version glob = [fa.Name]) := by
  by_cases hfe : files = []
  · subst hfe
    have hgm : globMatchedOf c [] slug version glob = [] := rfl
    have hresult : getLatestProductFile c (ListOutcome.keys []) slug version glob =
        some (Except.error "bucket contains no files") := rfl
    rw [hresult, hgm]
    constructor
    · constructor
      · rintro ⟨fa, hfa⟩
        cases hfa
      · intro h
        cases h
    · intro fa hfa
      cases hfa
  · rw [getLatestProductFile_shape c files slug version glob hfe hc]
    by_cases hp : prefixedOf c files slug version = []
    · have hgm : globMatchedOf c files slug version glob = [] := by
        rw [globMatchedOf, hp]
        rfl
      rw [if_pos hp, hgm]
      constructor
      · constructor
        · rintro ⟨fa, hfa⟩
          cases hfa
        · intro h
          cases h
      · intro fa hfa
        cases hfa
    · rw [if_neg hp]
      rcases hgm : globMatchedOf c files slug version glob with _ | ⟨g, rest⟩
      · rw [if_neg (by simp)]
        constructor
        · constructor
          · rintro ⟨fa, hfa⟩
            cases hfa
          · intro h
            cases h
        · intro fa hfa
          cases hfa
      · rcases rest with _ | ⟨g2, rest2⟩
        · rw [if_neg (by simp)]
          constructor
          · constructor
            · intro _
              rfl
            · intro _
              exact ⟨⟨g⟩, rfl⟩
          · intro fa hfa
            cases hfa
            rfl
        · rw [if_pos (by simp)]
          constructor
          · constructor
            · rintro ⟨fa, hfa⟩
              cases hfa
            · intro h
              simp at h
          · intro fa hfa
            cases hfa

theorem c1_witness :
    ((∃ fa, getLatestProductFile ⟨"rel", ""⟩
        (ListOutcome.keys ["rel/[db,1.2.0]linux.tgz", "rel/[db,1.2.0]windows.tgz"])
        "db" "1.2.0" "*linux*" = some (Except.ok fa)) ↔
      (globMatchedOf ⟨"rel", ""⟩ ["rel/[db,1.2.0]linux.tgz", "rel/[db,1.2.0]windows.tgz"]
        "db" "1.2.0" "*linux*").length = 1) ∧
    (∀ fa, getLatestProductFile ⟨"rel", ""⟩
        (ListOutcome.keys ["rel/[db,1.2.0]linux.tgz", "rel/[db,1.2.0]windows.tgz"])
        "db" "1.2.0" "*linux*" = some (Except.ok fa) →
      globMatchedOf ⟨"rel", ""⟩ ["rel/[db,1.2.0]linux.tgz", "rel/[db,1.2.0]windows.tgz"]
        "db" "1.2.0" "*linux*" = [fa.Name]) :=
  c1_unique_glob_match ⟨"rel", ""⟩ ["rel/[db,1.2.0]linux.tgz", "rel/[db,1.2.0]windows.tgz"]
    "db" "1.2.0" "*linux*" (by decide)

/-- Every member of a joined list occurs as a substring of the join. -/
theorem mem_goJoin_containsSub (sep : String) :
    ∀ (l : List String) (f : String), f ∈ l → containsSub f.data (goJoin sep l).data = true
  | [], f, hf => absurd hf (List.not_mem_nil f)
  | [s], f, hf => by
    have hfs : f = s := by simpa using hf
    subst hfs
    exact containsSub_refl f.data
  | s :: t :: ts, f, hf => by
    rcases List.mem_cons.1 hf with h | h
    · subst h
      show containsSub f.data (f ++ sep ++ goJoin sep (t :: ts)).data = true
      rw [String.data_append, String.data_append, List.append_assoc]
      exact containsSub_self_append _ _
    · have ih := mem_goJoin_containsSub sep (t :: ts) f h
      show containsSub f.data (s ++ sep ++ goJoin sep (t :: ts)).data = true
      rw [String.data_append]
      exact containsSub_append_left _ ih

/-- Claim C5: when the listing yielded keys but none matches the exact
`[slug,version]` pattern, resolution fails — for every glob, before any
glob matching — with the `NotFound`-style no-prefix error, whose message
guides the caller to the prior, separate `download-product` persisting
step. -/
theorem c5_no_prefix_fails_before_glob (c : S3ClientM) (files : List String)
    (slug version glob : String) (hne : files ≠ [])
    (hc : (compile (lookupPat c.path.data slug.data version.data)).isSome = true)
    (hp : prefixedOf c files slug version = []) :
    getLatestProductFile c (ListOutcome.keys files) slug version glob =
      some (Except.error (noPrefixMessage slug version)) ∧
    containsSub "download-product".data (noPrefixMessage slug version).data = true ∧
    containsSub "persisted".data (noPrefixMessage slug version).data = true := by
  refine ⟨?_, ?_, ?_⟩
  · rw [getLatestProductFile_shape c files slug version glob hne hc, if_pos hp]
  · show containsSub _ (("no product files with expected prefix [" ++ slug ++ "," ++ version ++
      "] found. Please ensure the file you're trying to download was initially persisted from Pivotal Network net using an appropriately configured download-product command")).data = true
    rw [String.data_append]
    exact containsSub_append_left _ (by decide)
  · show containsSub _ (("no product files with expected prefix [" ++ slug ++ "," ++ version ++
      "] found. Please ensure the file you're trying to download was initially persisted from Pivotal Network net using an appropriately configured download-product command")).data = true
    rw [String.data_append]
    exact containsSub_append_left _ (by decide)

theorem c5_witness :
    getLatestProductFile ⟨"", ""⟩ (ListOutcome.keys ["other.tgz"]) "db" "1.0" "*" =
      some (Except.error (noPrefixMessage "db" "1.0")) ∧
    containsSub "download-product".data (noPrefixMessage "db" "1.0").data = true ∧
    containsSub "persisted".data (noPrefixMessage "db" "1.0").data = true :=
  c5_no_prefix_fails_before_glob ⟨"", ""⟩ ["other.tgz"] "db" "1.0" "*"
    (by decide) (by decide) (by decide)

/-- Claim C6: when two or more prefix-matching keys have a base filename
matching the glob, resolution fails with the `Ambiguous`-style error and
the message enumerates every one of the matching paths. -/
theorem c6_ambiguous_enumerates_matches (c : S3ClientM) (files : List String)
    (slug version glob : String)
    (hc : (compile (lookupPat c.path.data slug.data version.data)).isSome = true)
    (h2 : 2 ≤ (globMatchedOf c files slug version glob).length) :
    getLatestProductFile c (ListOutcome.keys files) slug version glob =
      some (Except.error (ambiguousMessage glob (globMatchedOf c files slug version glob))) ∧
    ∀ f ∈ globMatchedOf c files slug version glob,
      containsSub f.data
        (ambiguousMessage glob (globMatchedOf c files slug version glob)).data = true := by
  have hpf : prefixedOf c files slug version ≠ [] := by
    intro h
    rw [globMatchedOf, h] at h2
    simp at h2
  have hfiles : files ≠ [] := by
    intro h
    subst h
    exact hpf rfl
  constructor
  · rw [getLatestProductFile_shape c files slug version glob hfiles hc, if_neg hpf,
      if_pos (by omega)]
  · intro f hf
    show containsSub f.data (("the glob '" ++ glob ++
      "' matches multiple files. Write your glob to match exactly one of the following:\n  ") ++
      goJoin "\n  " (globMatchedOf c files slug version glob)).data = true
    rw [String.data_append]
    exact containsSub_append_left _ (mem_goJoin_containsSub _ _ _ hf)

theorem c6_witness :
    getLatestProductFile ⟨"rel", ""⟩
      (ListOutcome.keys ["rel/[db,1.2.0]linux.tgz", "rel/[db,1.2.0]windows.tgz"])
      "db" "1.2.0" "*.tgz" =
      some (Except.error (ambiguousMessage "*.tgz"
        (globMatchedOf ⟨"rel", ""⟩ ["rel/[db,1.2.0]linux.tgz", "rel/[db,1.2.0]windows.tgz"]
          "db" "1.2.0" "*.tgz"))) :=
  (c6_ambiguous_enumerates_matches ⟨"rel", ""⟩
    ["rel/[db,1.2.0]linux.tgz", "rel/[db,1.2.0]windows.tgz"] "db" "1.2.0" "*.tgz"
    (by decide) (by decide)).1

/-- Claim C10: a syntactically malformed glob (one `filepath.Match`
reports `ErrBadPattern` for) is silently treated as matching no file:
when at least one key matches the `[slug,version]` pattern, resolution
fails with the `matches no file` error, whose text carries no trace of
the discarded pattern-syntax error. -/
theorem c10_bad_glob_silently_none (c : S3ClientM) (files : List String)
    (slug version glob : String)
    (hc : (compile (lookupPat c.path.data slug.data version.data)).isSome = true)
    (hbad : badPattern glob.data = true)
    (hp : prefixedOf c files slug version ≠ []) :
    getLatestProductFile c (ListOutcome.keys files) slug version glob =
      some (Except.error (globNoneMessage glob)) := by
  have hfiles : files ≠ [] := by
    intro h
    subst h
    exact hp rfl
  have hgm : globMatchedOf c files slug version glob = [] := by
    rw [globMatchedOf]
    apply List.filter_eq_nil_iff.2
    intro f _
    simp [globArgMatchB, filepathMatch, hbad]
  rw [getLatestProductFile_shape c files slug version glob hfiles hc, if_neg hp, hgm]
  rfl

theorem c10_witness :
    getLatestProductFile ⟨"", ""⟩ (ListOutcome.keys ["[db,1.0]file.tgz"]) "db" "1.0" "[" =
      some (Except.error (globNoneMessage "[")) :=
  c10_bad_glob_silently_none ⟨"", ""⟩ ["[db,1.0]file.tgz"] "db" "1.0" "["
    (by decide) (by decide) (by decide)

/-! ## Version collection: first-occurrence deduplication -/

/-- First-occurrence deduplication of an already-extracted version list,
relative to the versions already seen. -/
def dedupSeen : List String → List String → List String
  | [], _ => []
  | v :: vs, seen =>
    if v ∈ seen then dedupSeen vs seen else v :: dedupSeen vs (v :: seen)

theorem collectVersions_eq_dedupSeen (ext : String → Option String) :
    ∀ (fs : List String) (seen : List String),
      collectVersions ext fs seen = dedupSeen (fs.filterMap ext) seen
  | [], _ => by simp [collectVersions, dedupSeen]
  | f :: fs, seen => by
    rcases he : ext f with _ | v
    · rw [collectVersions, he, List.filterMap_cons_none he]
      exact collectVersions_eq_dedupSeen ext fs seen
    · rw [collectVersions, he, List.filterMap_cons_some he, dedupSeen]
      show (if v ∈ seen then collectVersions ext fs seen
        else v :: collectVersions ext fs (v :: seen)) = _
      by_cases hv : v ∈ seen
      · rw [if_pos hv, if_pos hv]
        exact collectVersions_eq_dedupSeen ext fs seen
      · rw [if_neg hv, if_neg hv]
        rw [collectVersions_eq_dedupSeen ext fs (v :: seen)]

theorem mem_dedupSeen : ∀ (vs seen : List String) (x : String),
    x ∈ dedupSeen vs seen ↔ x ∈ vs ∧ x ∉ seen
  | [], seen, x => by simp [dedupSeen]
  | v :: vs, seen, x => by
    rw [dedupSeen]
    by_cases hv : v ∈ seen
    · rw [if_pos hv, mem_dedupSeen vs seen x]
      simp only [List.mem_cons]
      constructor
      · rintro ⟨hx, hs⟩
        exact ⟨Or.inr hx, hs⟩
      · rintro ⟨hx | hx, hs⟩
        · exact absurd (hx ▸ hv) hs
        · exact ⟨hx, hs⟩
    · rw [if_neg hv, List.mem_cons, mem_dedupSeen vs (v :: seen) x]
      simp only [List.mem_cons]
      constructor
      · rintro (rfl | ⟨hx, hs⟩)
        · exact ⟨Or.inl rfl, hv⟩
        · exact ⟨Or.inr hx, fun hmem => hs (Or.inr hmem)⟩
      · rintro ⟨hx | hx, hs⟩
        · exact Or.inl hx
        · by_cases hxv : x = v
          · exact Or.inl hxv
          · exact Or.inr ⟨hx, fun hh => hh.elim hxv hs⟩

theorem nodup_dedupSeen : ∀ (vs seen : List String), (dedupSeen vs seen).Nodup
  | [], _ => List.nodup_nil
  | v :: vs, seen => by
    rw [dedupSeen]
    by_cases hv : v ∈ seen
    · rw [if_pos hv]
      exact nodup_dedupSeen vs seen
    · rw [if_neg hv]
      refine List.Nodup.cons ?_ (nodup_dedupSeen vs (v :: seen))
      intro hmem
      exact ((mem_dedupSeen vs (v :: seen) v).1 hmem).2 (List.mem_cons_self v seen)

theorem pairwise_dedupSeen : ∀ (vs seen : List String),
    (dedupSeen vs seen).Pairwise
      (fun a b => List.indexOf a vs < List.indexOf b vs)
  | [], _ => List.Pairwise.nil
  | v :: vs, seen => by
    rw [dedupSeen]
    by_cases hv : v ∈ seen
    · rw [if_pos hv]
      refine (pairwise_dedupSeen vs seen).imp_of_mem ?_
      intro a b ha hb hlt
      have hav : a ≠ v := fun h => ((mem_dedupSeen vs seen a).1 ha).2 (h ▸ hv)
      have hbv : b ≠ v := fun h => ((mem_dedupSeen vs seen b).1 hb).2 (h ▸ hv)
      rw [List.indexOf_cons_ne vs (fun h => hav h.symm),
        List.indexOf_cons_ne vs (fun h => hbv h.symm)]
      omega
    · rw [if_neg hv]
      refine List.Pairwise.cons ?_ ?_
      · intro b hb
        have hbv : b ≠ v :=
          fun h => ((mem_dedupSeen vs (v :: seen) b).1 hb).2 (h ▸ List.mem_cons_self v seen)
        rw [List.indexOf_cons_self, List.indexOf_cons_ne vs (fun h => hbv h.symm)]
        omega
      · refine (pairwise_dedupSeen vs (v :: seen)).imp_of_mem ?_
        intro a b ha hb hlt
        have hav : a ≠ v :=
          fun h => ((mem_dedupSeen vs (v :: seen) a).1 ha).2 (h ▸ List.mem_cons_self v seen)
        have hbv : b ≠ v :=
          fun h => ((mem_dedupSeen vs (v :: seen) b).1 hb).2 (h ▸ List.mem_cons_self v seen)
        rw [List.indexOf_cons_ne vs (fun h => hav h.symm),
          List.indexOf_cons_ne vs (fun h => hbv h.symm)]
        omega

/-- Claim C2: a version list returned by `GetAllProductVersions` contains
every version token extracted from the listed keys, each distinct version
exactly once, ordered by the first key from which each version was
extracted. -/
theorem c2_versions_dedup_first_order (c : S3ClientM) (files : List String)
    (slug : String) (vs : List String)
    (h : getAllProductVersions c (ListOutcome.keys files) slug = some (Except.ok vs)) :
    (∀ v, v ∈ vs ↔ v ∈ files.filterMap (extractVersion c.path slug)) ∧
    vs.Nodup ∧
    vs.Pairwise (fun a b =>
      List.indexOf a (files.filterMap (extractVersion c.path slug)) <
      List.indexOf b (files.filterMap (extractVersion c.path slug))) := by
  have hne : files ≠ [] := by
    rintro rfl
    cases h
  have hc : (compile (listingPat c.path.data slug.data)).isSome = true := by
    by_cases hco : (compile (listingPat c.path.data slug.data)).isSome = true
    · exact hco
    · rw [getAllProductVersions] at h
      have hl : listFiles c (ListOutcome.keys files) = Except.ok files := by
        simp [listFiles, List.isEmpty_iff, hne]
      rw [hl] at h
      simp only [hco] at h
      rw [if_neg (by simp [hco])] at h
      cases h
  rw [getAllProductVersions_shape c files slug hne hc] at h
  by_cases hv : collectVersions (extractVersion c.path slug) files [] = []
  · rw [if_pos hv] at h
    cases h
  · rw [if_neg hv] at h
    have hvs : vs = collectVersions (extractVersion c.path slug) files [] := by
      cases h
      rfl
    subst hvs
    rw [collectVersions_eq_dedupSeen]
    refine ⟨?_, nodup_dedupSeen _ _, pairwise_dedupSeen _ _⟩
    intro v
    rw [mem_dedupSeen]
    simp

theorem c2_witness :
    (∀ v, v ∈ ["1.2.0", "2.0.0"] ↔
      v ∈ (["rel/[db,1.2.0]linux.tgz", "rel/[db,1.2.0]windows.tgz",
        "rel/[db,2.0.0]linux.tgz"].filterMap (extractVersion "rel" "db"))) ∧
    (["1.2.0", "2.0.0"] : List String).Nodup ∧
    (["1.2.0", "2.0.0"] : List String).Pairwise (fun a b =>
      List.indexOf a (["rel/[db,1.2.0]linux.tgz", "rel/[db,1.2.0]windows.tgz",
        "rel/[db,2.0.0]linux.tgz"].filterMap (extractVersion "rel" "db")) <
      List.indexOf b (["rel/[db,1.2.0]linux.tgz", "rel/[db,1.2.0]windows.tgz",
        "rel/[db,2.0.0]linux.tgz"].filterMap (extractVersion "rel" "db"))) :=
  c2_versions_dedup_first_order ⟨"rel", ""⟩
    ["rel/[db,1.2.0]linux.tgz", "rel/[db,1.2.0]windows.tgz", "rel/[db,2.0.0]linux.tgz"]
    "db" ["1.2.0", "2.0.0"] (by decide)

/-- Claim C4 as stated is false on the code: with an empty bucket listing
the error is the generic `bucket contains no files` from `listFiles`,
which does not carry the slug.  Here at slug `zzz` the message carries no
`zzz`. -/
theorem c4_counterexample :
    getAllProductVersions ⟨"", ""⟩ (ListOutcome.keys []) "zzz" =
      some (Except.error "bucket contains no files") ∧
    containsSub "zzz".data "bucket contains no files".data = false := by
  constructor
  · rfl
  · decide

/-- Claim C4, amended: with an empty listing `GetAllProductVersions`
fails with the generic `bucket contains no files` error (which does not
carry the slug); with a non-empty listing in which no key matches the
slug's pattern it fails with the `NotFound`-style error whose message
carries the slug. -/
theorem c4_amended_not_found (c : S3ClientM) (files : List String) (slug : String) :
    getAllProductVersions c (ListOutcome.keys []) slug =
      some (Except.error "bucket contains no files") ∧
    ((compile (listingPat c.path.data slug.data)).isSome = true → files ≠ [] →
      files.filterMap (extractVersion c.path slug) = [] →
      getAllProductVersions c (ListOutcome.keys files) slug =
        some (Except.error (noVersionsMessage slug)) ∧
      containsSub slug.data (noVersionsMessage slug).data = true) := by
  constructor
  · rfl
  · intro hc hne hfm
    constructor
    · rw [getAllProductVersions_shape c files slug hne hc]
      rw [collectVersions_eq_dedupSeen, hfm]
      rfl
    · show containsSub slug.data
        (("no files matching pivnet-product-slug " ++ slug ++ " found")).data = true
      rw [String.data_append, String.data_append, List.append_assoc]
      exact containsSub_append_left _ (containsSub_self_append _ _)

theorem c4_witness :
    (getAllProductVersions ⟨"", ""⟩ (ListOutcome.keys []) "db" =
      some (Except.error "bucket contains no files")) ∧
    (getAllProductVersions ⟨"", ""⟩ (ListOutcome.keys ["other.tgz"]) "db" =
      some (Except.error (noVersionsMessage "db")) ∧
    containsSub "db".data (noVersionsMessage "db").data = true) :=
  ⟨(c4_amended_not_found ⟨"", ""⟩ ["other.tgz"] "db").1,
    (c4_amended_not_found ⟨"", ""⟩ ["other.tgz"] "db").2 (by decide) (by decide) (by decide)⟩

/-! ## Parsing the lookup pattern of a metacharacter-free slug -/

theorem special_of_postfixStart {c : Char} (h : postfixStart c = true) : isSpecialChar c = true := by
  rw [postfixStart] at h
  simp only [Bool.or_eq_true, decide_eq_true_eq] at h
  rcases h with (h | h) | h <;> subst h <;> decide

theorem not_postfix_of_not_special {c : Char} (h : isSpecialChar c = false) :
    postfixStart c = false := by
  cases hp : postfixStart c
  · rfl
  · rw [special_of_postfixStart hp] at h
    cases h

theorem noPostB_quoteMeta_append (xs t : List Char) (h : noPostB t = true) :
    noPostB (quoteMeta xs ++ t) = true := by
  cases xs with
  | nil => exact h
  | cons c cs =>
    rw [quoteMeta]
    by_cases hsp : isSpecialChar c = true
    · rw [if_pos hsp]
      rfl
    · rw [if_neg hsp]
      show (!postfixStart c) = true
      rw [not_postfix_of_not_special (Bool.not_eq_true _ ▸ hsp)]
      rfl

theorem noPostB_safe_append (xs t : List Char)
    (hx : xs.all (fun c => !isSpecialChar c) = true) (h : noPostB t = true) :
    noPostB (xs ++ t) = true := by
  cases xs with
  | nil => exact h
  | cons c cs =>
    have hc : isSpecialChar c = false := by
      have hm := List.all_eq_true.1 hx c (List.mem_cons_self c cs)
      simpa using hm
    show (!postfixStart c) = true
    rw [not_postfix_of_not_special hc]
    rfl

theorem applyPostfix_noPost (a : RE) (t : List Char) (h : noPostB t = true) :
    applyPostfix a t = some (a, t) := by
  cases t with
  | nil => rfl
  | cons c rest =>
    have hc : postfixStart c = false := by
      have hb : (!postfixStart c) = true := h
      simpa using hb
    have h1 : ¬(c = '*') := fun he => by rw [he] at hc; exact absurd hc (by decide)
    have h2 : ¬(c = '+') := fun he => by rw [he] at hc; exact absurd hc (by decide)
    have h3 : ¬(c = '?') := fun he => by rw [he] at hc; exact absurd hc (by decide)
    simp only [applyPostfix, if_neg h1, if_neg h2, if_neg h3]

theorem parseSeq_step_plain (c : Char) (t : List Char) (k : Nat)
    (hsp : isSpecialChar c = false) (hnp : noPostB t = true)
    {b : RE} {r : List Char} (ht : parseSeq k t = some (b, r)) :
    parseSeq (k + 1) (c :: t) = some (RE.cat (RE.ch c) b, r) := by
  have h1 : ¬(c = ')') := fun he => by rw [he] at hsp; exact absurd hsp (by decide)
  have h2 : ¬(c = '\\') := fun he => by rw [he] at hsp; exact absurd hsp (by decide)
  have h3 : ¬(c = '.') := fun he => by rw [he] at hsp; exact absurd hsp (by decide)
  have h4 : ¬(c = '(') := fun he => by rw [he] at hsp; exact absurd hsp (by decide)
  have h5 : ¬(isSpecialChar c = true) := by simp [hsp]
  have happ := applyPostfix_noPost (RE.ch c) t hnp
  simp only [parseSeq, if_neg h1, if_neg h2, if_neg h3, if_neg h4, if_neg h5]
  simp [happ, ht]

theorem parseSeq_step_esc (c : Char) (t : List Char) (k : Nat)
    (hsp : isSpecialChar c = true) (hnp : noPostB t = true)
    {b : RE} {r : List Char} (ht : parseSeq k t = some (b, r)) :
    parseSeq (k + 1) ('\\' :: c :: t) = some (RE.cat (RE.ch c) b, r) := by
  have happ := applyPostfix_noPost (RE.ch c) t hnp
  simp only [parseSeq, if_pos hsp]
  simp [happ, ht]

theorem parseSeq_step_optSlash (t : List Char) (k : Nat) (hnp : noPostB t = true)
    {b : RE} {r : List Char} (ht : parseSeq k t = some (b, r)) :
    parseSeq (k + 1) ('/' :: '?' :: t) = some (RE.cat (RE.opt false (RE.ch '/')) b, r) := by
  have happ : applyPostfix (RE.ch '/') ('?' :: t) = some (RE.opt false (RE.ch '/'), t) := by
    cases t with
    | nil => rfl
    | cons d rest =>
      have hd : ¬(d = '?') := by
        intro he
        rw [he] at hnp
        exact Bool.noConfusion hnp
      have hdp : postfixStart d = false := by
        have hb : (!postfixStart d) = true := hnp
        simpa using hb
      show finishPost (RE.opt true (RE.ch '/')) (RE.opt false (RE.ch '/')) (d :: rest) =
        some (RE.opt false (RE.ch '/'), d :: rest)
      simp only [finishPost, if_neg hd, if_neg (by simp [hdp] :
        ¬(postfixStart d = true))]
  simp only [parseSeq, if_neg (by decide : ¬('/' = ')'))]
  simp [happ, ht, (by decide : isSpecialChar '/' = false)]

theorem parseSeq_close (f : Nat) (hf : 2 ≤ f) :
    parseSeq f ['\\', ']'] = some (RE.cat (RE.ch ']') RE.eps, []) := by
  obtain ⟨k, rfl⟩ : ∃ k, f = k + 2 := ⟨f - 2, by omega⟩
  rfl

theorem parseSeq_version_tail : ∀ (v : List Char) (f : Nat),
    (quoteMeta v).length + 2 ≤ f →
    parseSeq f (quoteMeta v ++ ['\\', ']']) =
      some (litChain v (RE.cat (RE.ch ']') RE.eps), [])
  | [], f, hf => parseSeq_close f hf
  | c :: v, f, hf => by
    rw [quoteMeta] at hf ⊢
    by_cases hsp : isSpecialChar c = true
    · rw [if_pos hsp] at hf ⊢
      obtain ⟨k, rfl⟩ : ∃ k, f = k + 1 := ⟨f - 1, by
        simp only [List.length_cons] at hf
        omega⟩
      have hlen : (quoteMeta v).length + 2 ≤ k := by
        simp only [List.length_cons] at hf
        omega
      have ih := parseSeq_version_tail v k hlen
      have hnp : noPostB (quoteMeta v ++ ['\\', ']']) = true :=
        noPostB_quoteMeta_append v _ rfl
      show parseSeq (k + 1) ('\\' :: c :: (quoteMeta v ++ ['\\', ']'])) = _
      rw [parseSeq_step_esc c _ k hsp hnp ih]
      rfl
    · have hspf : isSpecialChar c = false := by
        simpa using hsp
      rw [if_neg hsp] at hf ⊢
      obtain ⟨k, rfl⟩ : ∃ k, f = k + 1 := ⟨f - 1, by
        simp only [List.length_cons] at hf
        omega⟩
      have hlen : (quoteMeta v).length + 2 ≤ k := by
        simp only [List.length_cons] at hf
        omega
      have ih := parseSeq_version_tail v k hlen
      have hnp : noPostB (quoteMeta v ++ ['\\', ']']) = true :=
        noPostB_quoteMeta_append v _ rfl
      show parseSeq (k + 1) (c :: (quoteMeta v ++ ['\\', ']'])) = _
      rw [parseSeq_step_plain c _ k hspf hnp ih]
      rfl

theorem parseSeq_slug_tail : ∀ (s v : List Char) (f : Nat),
    s.all (fun c => !isSpecialChar c) = true →
    s.length + (quoteMeta v).length + 3 ≤ f →
    parseSeq f (s ++ ',' :: (quoteMeta v ++ ['\\', ']'])) =
      some (litChain s (RE.cat (RE.ch ',')
        (litChain v (RE.cat (RE.ch ']') RE.eps))), [])
  | [], v, f, _, hf => by
    obtain ⟨k, rfl⟩ : ∃ k, f = k + 1 := ⟨f - 1, by omega⟩
    have ih := parseSeq_version_tail v k (by omega)
    have hnp : noPostB (quoteMeta v ++ ['\\', ']']) = true :=
      noPostB_quoteMeta_append v _ rfl
    show parseSeq (k + 1) (',' :: (quoteMeta v ++ ['\\', ']'])) = _
    rw [parseSeq_step_plain ',' _ k (by decide) hnp ih]
    rfl
  | c :: s, v, f, hsafe, hf => by
    have hc : isSpecialChar c = false := by
      have hm := List.all_eq_true.1 hsafe c (List.mem_cons_self c s)
      simpa using hm
    have hs2 : s.all (fun c => !isSpecialChar c) = true := by
      rw [List.all_cons, Bool.and_eq_true] at hsafe
      exact hsafe.2
    obtain ⟨k, rfl⟩ : ∃ k, f = k + 1 := ⟨f - 1, by
      simp only [List.length_cons] at hf
      omega⟩
    have ih := parseSeq_slug_tail s v k hs2 (by
      simp only [List.length_cons] at hf
      omega)
    have hnp : noPostB (s ++ ',' :: (quoteMeta v ++ ['\\', ']'])) = true :=
      noPostB_safe_append s _ hs2 rfl
    show parseSeq (k + 1) (c :: (s ++ ',' :: (quoteMeta v ++ ['\\', ']']))) = _
    rw [parseSeq_step_plain c _ k hc hnp ih]
    rfl

theorem parseSeq_path_tail : ∀ (p s v : List Char) (f : Nat),
    s.all (fun c => !isSpecialChar c) = true →
    (quoteMeta p).length + s.length + (quoteMeta v).length + 8 ≤ f →
    parseSeq f (quoteMeta p ++ '/' :: '?' :: '\\' :: '[' ::
        (s ++ ',' :: (quoteMeta v ++ ['\\', ']']))) =
      some (litChain p (RE.cat (RE.opt false (RE.ch '/'))
        (RE.cat (RE.ch '[') (litChain s (RE.cat (RE.ch ',')
          (litChain v (RE.cat (RE.ch ']') RE.eps)))))), [])
  | [], s, v, f, hsafe, hf => by
    obtain ⟨k, rfl⟩ : ∃ k, f = k + 2 := ⟨f - 2, by omega⟩
    have ihs := parseSeq_slug_tail s v k hsafe (by omega)
    have hnp1 : noPostB (s ++ ',' :: (quoteMeta v ++ ['\\', ']'])) = true :=
      noPostB_safe_append s _ hsafe rfl
    have hesc := parseSeq_step_esc '[' _ k (by decide) hnp1 ihs
    have hnp2 : noPostB ('\\' :: '[' ::
        (s ++ ',' :: (quoteMeta v ++ ['\\', ']']))) = true := rfl
    have hopt := parseSeq_step_optSlash _ (k + 1) hnp2 hesc
    exact hopt
  | c :: p, s, v, f, hsafe, hf => by
    rw [quoteMeta] at hf ⊢
    by_cases hsp : isSpecialChar c = true
    · rw [if_pos hsp] at hf ⊢
      obtain ⟨k, rfl⟩ : ∃ k, f = k + 1 := ⟨f - 1, by
        simp only [List.length_cons] at hf
        omega⟩
      have hlen : (quoteMeta p).length + s.length + (quoteMeta v).length + 8 ≤ k := by
        simp only [List.length_cons] at hf
        omega
      have ih := parseSeq_path_tail p s v k hsafe hlen
      have hnp : noPostB (quoteMeta p ++ '/' :: '?' :: '\\' :: '[' ::
          (s ++ ',' :: (quoteMeta v ++ ['\\', ']']))) = true :=
        noPostB_quoteMeta_append p _ rfl
      show parseSeq (k + 1) ('\\' :: c :: (quoteMeta p ++ '/' :: '?' :: '\\' :: '[' ::
          (s ++ ',' :: (quoteMeta v ++ ['\\', ']'])))) = _
      rw [parseSeq_step_esc c _ k hsp hnp ih]
      rfl
    · have hspf : isSpecialChar c = false := by
        simpa using hsp
      rw [if_neg hsp] at hf ⊢
      obtain ⟨k, rfl⟩ : ∃ k, f = k + 1 := ⟨f - 1, by
        simp only [List.length_cons] at hf
        omega⟩
      have hlen : (quoteMeta p).length + s.length + (quoteMeta v).length + 8 ≤ k := by
        simp only [List.length_cons] at hf
        omega
      have ih := parseSeq_path_tail p s v k hsafe hlen
      have hnp : noPostB (quoteMeta p ++ '/' :: '?' :: '\\' :: '[' ::
          (s ++ ',' :: (quoteMeta v ++ ['\\', ']']))) = true :=
        noPostB_quoteMeta_append p _ rfl
      show parseSeq (k + 1) (c :: (quoteMeta p ++ '/' :: '?' :: '\\' :: '[' ::
          (s ++ ',' :: (quoteMeta v ++ ['\\', ']'])))) = _
      rw [parseSeq_step_plain c _ k hspf hnp ih]
      rfl

/-- With a metacharacter-free slug, the lookup pattern compiles to exactly
the literal regex `lookupAST`: quoted path, raw slug, quoted version. -/
theorem compile_lookup (path slug version : List Char)
    (hsafe : slug.all (fun c => !isSpecialChar c) = true) :
    compile (lookupPat path slug version) =
      some (lookupAST (trimSlashes path) slug version) := by
  have hnpX : noPostB (quoteMeta (trimSlashes path) ++ '/' :: '?' :: '\\' :: '[' ::
      (slug ++ ',' :: (quoteMeta version ++ ['\\', ']']))) = true :=
    noPostB_quoteMeta_append _ _ rfl
  set X := quoteMeta (trimSlashes path) ++ '/' :: '?' :: '\\' :: '[' ::
      (slug ++ ',' :: (quoteMeta version ++ ['\\', ']'])) with hXdef
  have hlen : (quoteMeta (trimSlashes path)).length + slug.length +
      (quoteMeta version).length + 8 ≤ X.length + 2 := by
    rw [hXdef]
    simp only [List.length_append, List.length_cons]
    omega
  have hparse := parseSeq_path_tail (trimSlashes path) slug version (X.length + 2) hsafe hlen
  have hopt := parseSeq_step_optSlash X (X.length + 2) hnpX hparse
  show compile ('^' :: '/' :: '?' :: X) = some (lookupAST (trimSlashes path) slug version)
  rw [compile]
  rw [show ('/' :: '?' :: X).length + 1 = X.length + 2 + 1 from by
    simp only [List.length_cons]]
  rw [hopt]
  rfl

/-! ## Parsing the listing pattern of a metacharacter-free slug -/

theorem length_le_quoteMeta : ∀ (xs : List Char), xs.length ≤ (quoteMeta xs).length
  | [] => Nat.le_refl 0
  | c :: xs => by
    rw [quoteMeta]
    by_cases hsp : isSpecialChar c = true
    · rw [if_pos hsp]
      simp only [List.length_cons]
      have := length_le_quoteMeta xs
      omega
    · rw [if_neg hsp]
      simp only [List.length_cons]
      have := length_le_quoteMeta xs
      omega

theorem parseSeq_capture_close (f : Nat) (hf : 7 ≤ f) :
    parseSeq f (',' :: '(' :: '.' :: '*' :: '?' :: ')' :: ['\\', ']']) =
      some (RE.cat (RE.ch ',') tgRE, []) := by
  obtain ⟨k, rfl⟩ : ∃ k, f = k + 7 := ⟨f - 7, by omega⟩
  rfl

theorem parseSeq_safe_append : ∀ (xs t : List Char) (f : Nat) {b : RE} {r : List Char},
    xs.all (fun c => !isSpecialChar c) = true → noPostB t = true →
    parseSeq f t = some (b, r) →
    parseSeq (xs.length + f) (xs ++ t) = some (litChain xs b, r)
  | [], t, f, b, r, _, _, ht => by simpa [litChain] using ht
  | c :: xs, t, f, b, r, hsafe, hnp, ht => by
    have hc : isSpecialChar c = false := by
      have hm := List.all_eq_true.1 hsafe c (List.mem_cons_self c xs)
      simpa using hm
    have hs2 : xs.all (fun c => !isSpecialChar c) = true := by
      rw [List.all_cons, Bool.and_eq_true] at hsafe
      exact hsafe.2
    have ih := parseSeq_safe_append xs t f hs2 hnp ht
    have hnp2 : noPostB (xs ++ t) = true := noPostB_safe_append xs t hs2 hnp
    show parseSeq (xs.length + 1 + f) (c :: (xs ++ t)) = _
    rw [show xs.length + 1 + f = (xs.length + f) + 1 from by omega]
    rw [parseSeq_step_plain c _ (xs.length + f) hc hnp2 ih]
    rfl

theorem parseSeq_quoteMeta_append : ∀ (xs t : List Char) (f : Nat) {b : RE} {r : List Char},
    noPostB t = true → parseSeq f t = some (b, r) →
    parseSeq (xs.length + f) (quoteMeta xs ++ t) = some (litChain xs b, r)
  | [], t, f, b, r, _, ht => by simpa [quoteMeta, litChain] using ht
  | c :: xs, t, f, b, r, hnp, ht => by
    have ih := parseSeq_quoteMeta_append xs t f hnp ht
    have hnp2 : noPostB (quoteMeta xs ++ t) = true := noPostB_quoteMeta_append xs t hnp
    rw [quoteMeta]
    by_cases hsp : isSpecialChar c = true
    · rw [if_pos hsp]
      show parseSeq (xs.length + 1 + f) ('\\' :: c :: (quoteMeta xs ++ t)) = _
      rw [show xs.length + 1 + f = (xs.length + f) + 1 from by omega]
      rw [parseSeq_step_esc c _ (xs.length + f) hsp hnp2 ih]
      rfl
    · have hspf : isSpecialChar c = false := by simpa using hsp
      rw [if_neg hsp]
      show parseSeq (xs.length + 1 + f) (c :: (quoteMeta xs ++ t)) = _
      rw [show xs.length + 1 + f = (xs.length + f) + 1 from by omega]
      rw [parseSeq_step_plain c _ (xs.length + f) hspf hnp2 ih]
      rfl

/-- With a metacharacter-free slug, the listing pattern compiles to exactly
the literal-prefix regex `listingAST`: quoted path, raw slug, lazy capture
group. -/
theorem compile_listing (path slug : List Char)
    (hsafe : slug.all (fun c => !isSpecialChar c) = true) :
    compile (listingPat path slug) = some (listingAST (trimSlashes path) slug) := by
  set X := quoteMeta (trimSlashes path) ++ '/' :: '?' :: '\\' :: '[' ::
      (slug ++ ',' :: '(' :: '.' :: '*' :: '?' :: ')' :: ['\\', ']']) with hXdef
  obtain ⟨f0, hf0ge, hf0eq⟩ : ∃ f0, 7 ≤ f0 ∧
      X.length + 2 = (trimSlashes path).length + (slug.length + f0 + 2) := by
    refine ⟨X.length - (trimSlashes path).length - slug.length, ?_, ?_⟩ <;>
      · rw [hXdef]
        have hq := length_le_quoteMeta (trimSlashes path)
        simp only [List.length_append, List.length_cons]
        omega
  have h0 := parseSeq_capture_close f0 hf0ge
  have h1 := parseSeq_safe_append slug _ f0 hsafe (by decide) h0
  have h2 := parseSeq_step_esc '[' _ (slug.length + f0) (by decide)
    (noPostB_safe_append slug _ hsafe (by decide)) h1
  have h3 := parseSeq_step_optSlash
    ('\\' :: '[' :: (slug ++ ',' :: '(' :: '.' :: '*' :: '?' :: ')' :: ['\\', ']']))
    (slug.length + f0 + 1) rfl h2
  have h4 := parseSeq_quoteMeta_append (trimSlashes path)
    ('/' :: '?' :: '\\' :: '[' :: (slug ++ ',' :: '(' :: '.' :: '*' :: '?' :: ')' :: ['\\', ']']))
    (slug.length + f0 + 2) rfl h3
  have h5 := parseSeq_step_optSlash X ((trimSlashes path).length + (slug.length + f0 + 2)) (by
    rw [hXdef]
    exact noPostB_quoteMeta_append _ _ rfl) h4
  show compile ('^' :: '/' :: '?' :: X) = some (listingAST (trimSlashes path) slug)
  rw [compile]
  rw [show ('/' :: '?' :: X).length + 1 =
      (trimSlashes path).length + (slug.length + f0 + 2) + 1 from by
    simp only [List.length_cons]
    omega]
  rw [h5]
  rfl

/-! ## Matching the literal lookup regex -/

theorem ocomb_none (y : Option (List Char)) : ocomb none y = y := rfl

theorem litChain_append (xs ys : List Char) (k : RE) :
    litChain (xs ++ ys) k = litChain xs (litChain ys k) := by
  induction xs with
  | nil => rfl
  | cons c xs ih => simp [litChain, ih]

theorem matchRE_cat (a b : RE) (s : List Char) (f : Nat) :
    matchRE (f + 1) (RE.cat a b) s =
      (matchRE f a s).flatMap (fun p =>
        (matchRE f b p.1).map (fun q => (q.1, ocomb p.2 q.2))) := rfl

theorem matchRE_opt (lz : Bool) (a : RE) (s : List Char) (f : Nat) :
    matchRE (f + 1) (RE.opt lz a) s =
      if lz then (s, none) :: matchRE f a s
      else matchRE f a s ++ [(s, none)] := rfl

theorem matchRE_eps (s : List Char) (f : Nat) :
    matchRE (f + 1) RE.eps s = [(s, none)] := rfl

theorem matchRE_ch_nil (c : Char) (f : Nat) (hf : 1 ≤ f) :
    matchRE f (RE.ch c) [] = [] := by
  obtain ⟨G, rfl⟩ : ∃ G, f = G + 1 := ⟨f - 1, by omega⟩
  rfl

theorem matchRE_ch_cons (c d : Char) (t : List Char) (f : Nat) (hf : 1 ≤ f) :
    matchRE f (RE.ch c) (d :: t) = if d = c then [(t, none)] else [] := by
  obtain ⟨G, rfl⟩ : ∃ G, f = G + 1 := ⟨f - 1, by omega⟩
  rfl

theorem matchRE_litChain : ∀ (cs : List Char) (k : RE) (s : List Char) (f : Nat), 1 ≤ f →
    matchRE (cs.length + f) (litChain cs k) s =
      if cs.isPrefixOf s then matchRE f k (s.drop cs.length) else []
  | [], k, s, f, hf => by
    simp [litChain, List.isPrefixOf]
  | c :: cs, k, s, f, hf => by
    have ihgen := matchRE_litChain cs k
    simp only [List.length_cons, litChain]
    rw [show cs.length + 1 + f = (cs.length + f) + 1 from by omega]
    rw [matchRE_cat]
    cases s with
    | nil =>
      rw [matchRE_ch_nil c _ (by omega)]
      simp [List.isPrefixOf]
    | cons d t =>
      rw [matchRE_ch_cons c d t _ (by omega)]
      by_cases hd : d = c
      · subst hd
        rw [if_pos rfl]
        simp only [List.flatMap_cons, List.flatMap_nil, List.append_nil,
          ocomb_none, Prod.mk.eta, List.map_id, List.map_id']
        rw [ihgen t f hf]
        simp only [List.isPrefixOf, beq_self_eq_true, Bool.true_and,
          List.drop_succ_cons]
      · have hcd : (c == d) = false := by
          simp only [beq_eq_false_iff_ne, ne_eq]
          exact fun h => hd h.symm
        rw [if_neg hd]
        simp only [List.flatMap_nil, List.isPrefixOf, hcd, Bool.false_and]
        simp

theorem matchRE_cat_optSlash (r : RE) (s : List Char) (g : Nat) :
    matchRE (g + 1 + 1 + 1) (RE.cat (RE.opt false (RE.ch '/')) r) s =
      (if s.head? = some '/' then matchRE (g + 1 + 1) r s.tail else []) ++
        matchRE (g + 1 + 1) r s := by
  rw [matchRE_cat, matchRE_opt, if_neg (by simp)]
  cases s with
  | nil =>
    rw [matchRE_ch_nil '/' _ (by omega)]
    simp [ocomb_none]
  | cons d t =>
    rw [matchRE_ch_cons '/' d t _ (by omega)]
    by_cases hd : d = '/'
    · subst hd
      rw [if_pos rfl]
      simp [ocomb_none, List.flatMap_append]
    · rw [if_neg hd]
      simp [ocomb_none, hd]

theorem matchRE_core (cl x : List Char) (f : Nat) (hf : cl.length + 1 ≤ f) :
    matchRE f (litChain cl RE.eps) x =
      if cl.isPrefixOf x then [(x.drop cl.length, none)] else [] := by
  obtain ⟨g, rfl⟩ : ∃ g, f = cl.length + (g + 1) := ⟨f - cl.length - 1, by omega⟩
  rw [matchRE_litChain cl RE.eps x (g + 1) (by omega), matchRE_eps]

theorem core_shape (s v : List Char) :
    RE.cat (RE.ch '[') (litChain s (RE.cat (RE.ch ',')
      (litChain v (RE.cat (RE.ch ']') RE.eps)))) =
    litChain ('[' :: (s ++ ',' :: (v ++ [']']))) RE.eps := by
  simp [litChain, litChain_append]

theorem matchRE_optSlash_lit_ne (cl w : List Char) (g : Nat)
    (hg : cl.length + 1 ≤ g + 1 + 1) :
    (matchRE (g + 1 + 1 + 1)
        (RE.cat (RE.opt false (RE.ch '/')) (litChain cl RE.eps)) w ≠ []) ↔
      (cl.isPrefixOf w = true ∨ ('/' :: cl).isPrefixOf w = true) := by
  rw [matchRE_cat_optSlash]
  rw [matchRE_core cl w.tail (g + 1 + 1) hg, matchRE_core cl w (g + 1 + 1) hg]
  cases w with
  | nil =>
    by_cases h : cl.isPrefixOf [] = true <;>
      simp [h, List.isPrefixOf]
  | cons d t =>
    by_cases hd : d = '/'
    · subst hd
      by_cases h1 : cl.isPrefixOf t = true <;>
        by_cases h2 : cl.isPrefixOf ('/' :: t) = true <;>
          simp [h1, h2, List.isPrefixOf]
    · have hbd : ('/' == d) = false := by
        simp only [beq_eq_false_iff_ne, ne_eq]
        exact fun h => hd h.symm
      by_cases h2 : cl.isPrefixOf (d :: t) = true <;>
        simp [h2, hd, hbd, List.isPrefixOf]

theorem sizeRE_litChain (cs : List Char) (k : RE) :
    sizeRE (litChain cs k) = 2 * cs.length + sizeRE k := by
  induction cs with
  | nil => simp [litChain]
  | cons c cs ih =>
    simp [litChain, sizeRE, ih]
    omega

theorem isPrefixOf_append_expand : ∀ (xs ys zs : List Char),
    (xs ++ ys).isPrefixOf zs = (xs.isPrefixOf zs && ys.isPrefixOf (zs.drop xs.length))
  | [], ys, zs => by simp [List.isPrefixOf]
  | x :: xs, ys, [] => by simp [List.isPrefixOf]
  | x :: xs, ys, z :: zs => by
    simp only [List.cons_append, List.isPrefixOf, List.length_cons, List.drop_succ_cons,
      List.append_eq]
    rw [isPrefixOf_append_expand xs ys zs]
    cases (x == z) <;> simp

theorem cons_isPrefixOf_iff (c : Char) (xs zs : List Char) :
    (c :: xs).isPrefixOf zs = true ↔
      zs.head? = some c ∧ xs.isPrefixOf zs.tail = true := by
  cases zs with
  | nil => simp [List.isPrefixOf]
  | cons z t =>
    simp only [List.isPrefixOf, List.head?_cons, List.tail_cons, Bool.and_eq_true,
      beq_iff_eq, Option.some.injEq]
    constructor
    · rintro ⟨rfl, h⟩
      exact ⟨rfl, h⟩
    · rintro ⟨rfl, h⟩
      exact ⟨rfl, h⟩

theorem ite_ne_nil (P : Prop) [Decidable P] (L : List (List Char × Option (List Char))) :
    ((if P then L else []) ≠ []) ↔ (P ∧ L ≠ []) := by
  by_cases h : P <;> simp [h]

theorem matchB_lookupAST_iff (p s v key : List Char) :
    matchB (lookupAST p s v) key = true ↔
      (List.isPrefixOf (p ++ '[' :: (s ++ ',' :: (v ++ [']']))) key = true ∨
       List.isPrefixOf (p ++ '/' :: '[' :: (s ++ ',' :: (v ++ [']']))) key = true ∨
       List.isPrefixOf ('/' :: (p ++ '[' :: (s ++ ',' :: (v ++ [']'])))) key = true ∨
       List.isPrefixOf ('/' :: (p ++ '/' :: '[' :: (s ++ ',' :: (v ++ [']'])))) key = true) := by
  have hmb : matchB (lookupAST p s v) key = true ↔
      matchTop (lookupAST p s v) key ≠ [] := by
    rw [matchB]
    generalize matchTop (lookupAST p s v) key = L
    cases L <;> simp
  rw [hmb, matchTop]
  have hsz : sizeRE (lookupAST p s v) =
      2 * p.length + 2 * s.length + 2 * v.length + 13 := by
    simp [lookupAST, sizeRE, sizeRE_litChain, List.length_append, List.length_cons]
    omega
  have hFbig : p.length + s.length + v.length + 12 ≤
      (key.length + 2) * (sizeRE (lookupAST p s v) + 1) := by
    have h2 : 2 * (sizeRE (lookupAST p s v) + 1) ≤
        (key.length + 2) * (sizeRE (lookupAST p s v) + 1) :=
      Nat.mul_le_mul_right _ (by omega)
    omega
  obtain ⟨g, hgF⟩ : ∃ g, (key.length + 2) * (sizeRE (lookupAST p s v) + 1) =
      g + 1 + 1 + 1 := ⟨(key.length + 2) * (sizeRE (lookupAST p s v) + 1) - 3, by omega⟩
  have hgbig : p.length + s.length + v.length + 9 ≤ g := by omega
  rw [hgF]
  rw [show lookupAST p s v = RE.cat (RE.opt false (RE.ch '/'))
      (litChain p (RE.cat (RE.opt false (RE.ch '/'))
        (litChain ('[' :: (s ++ ',' :: (v ++ [']']))) RE.eps))) from by
    rw [lookupAST, core_shape]]
  rw [matchRE_cat_optSlash]
  obtain ⟨f1, hf1⟩ : ∃ f1, g + 1 + 1 = p.length + f1 := ⟨g + 2 - p.length, by omega⟩
  have hf1pos : 1 ≤ f1 := by omega
  rw [hf1, matchRE_litChain p _ key.tail f1 hf1pos, matchRE_litChain p _ key f1 hf1pos]
  obtain ⟨g2, hg2⟩ : ∃ g2, f1 = g2 + 1 + 1 + 1 := ⟨f1 - 3, by omega⟩
  have hg2big : ('[' :: (s ++ ',' :: (v ++ [']']))).length + 1 ≤ g2 + 1 + 1 := by
    simp only [List.length_cons, List.length_append, List.length_nil]
    omega
  rw [hg2]
  have h1 := matchRE_optSlash_lit_ne ('[' :: (s ++ ',' :: (v ++ [']'])))
    (key.tail.drop p.length) g2 hg2big
  have h2 := matchRE_optSlash_lit_ne ('[' :: (s ++ ',' :: (v ++ [']'])))
    (key.drop p.length) g2 hg2big
  rw [ne_eq, List.append_eq_nil, not_and_or, ← ne_eq, ← ne_eq]
  rw [ite_ne_nil, ite_ne_nil, ite_ne_nil]
  rw [h1, h2]
  rw [cons_isPrefixOf_iff '/' (p ++ '[' :: (s ++ ',' :: (v ++ [']']))) key,
    cons_isPrefixOf_iff '/' (p ++ '/' :: '[' :: (s ++ ',' :: (v ++ [']']))) key]
  rw [isPrefixOf_append_expand p ('[' :: (s ++ ',' :: (v ++ [']']))) key,
    isPrefixOf_append_expand p ('/' :: '[' :: (s ++ ',' :: (v ++ [']']))) key,
    isPrefixOf_append_expand p ('[' :: (s ++ ',' :: (v ++ [']']))) key.tail,
    isPrefixOf_append_expand p ('/' :: '[' :: (s ++ ',' :: (v ++ [']']))) key.tail]
  simp only [Bool.and_eq_true]
  constructor
  · rintro (⟨hH, hPT, hA1 | hA2⟩ | ⟨hPK, hB1 | hB2⟩)
    · exact Or.inr (Or.inr (Or.inl ⟨hH, hPT, hA1⟩))
    · exact Or.inr (Or.inr (Or.inr ⟨hH, hPT, hA2⟩))
    · exact Or.inl ⟨hPK, hB1⟩
    · exact Or.inr (Or.inl ⟨hPK, hB2⟩)
  · rintro (⟨hPK, hB1⟩ | ⟨hPK, hB2⟩ | ⟨hH, hPT, hA1⟩ | ⟨hH, hPT, hA2⟩)
    · exact Or.inr ⟨hPK, Or.inl hB1⟩
    · exact Or.inr ⟨hPK, Or.inr hB2⟩
    · exact Or.inl ⟨hH, hPT, Or.inl hA1⟩
    · exact Or.inl ⟨hH, hPT, Or.inr hA2⟩

/-! ## Matching the literal listing regex with its lazy capture -/

theorem matchRE_group_unfold (a : RE) (s : List Char) (f : Nat) :
    matchRE (f + 1) (RE.group a) s =
      (matchRE f a s).map (fun p => (p.1, some (s.take (s.length - p.1.length)))) := rfl

theorem matchRE_star_lazy (a : RE) (s : List Char) (f : Nat) :
    matchRE (f + 1) (RE.star true a) s =
      (s, none) :: ((matchRE f a s).filter (fun p => p.1.length < s.length)).flatMap
        (fun p => (matchRE f (RE.star true a) p.1).map (fun q => (q.1, ocomb p.2 q.2))) := rfl

theorem ocomb_none_right (o : Option (List Char)) : ocomb o none = o := by
  cases o <;> rfl

theorem matchRE_dot_nil (f : Nat) : matchRE f RE.dot [] = [] := by
  cases f <;> rfl

theorem matchRE_dot_cons (c : Char) (t : List Char) (f : Nat) (hf : 1 ≤ f) :
    matchRE f RE.dot (c :: t) = if c = '\n' then [] else [(t, none)] := by
  obtain ⟨G, rfl⟩ : ∃ G, f = G + 1 := ⟨f - 1, by omega⟩
  rfl

theorem cons_map_range_drop (c : Char) (t : List Char) (n : Nat) :
    (c :: t, (none : Option (List Char))) ::
        (List.range (n + 1)).map (fun i => (t.drop i, (none : Option (List Char)))) =
      (List.range (n + 1 + 1)).map
        (fun i => ((c :: t).drop i, (none : Option (List Char)))) := by
  conv_rhs => rw [List.range_succ_eq_map]
  rw [List.map_cons, List.map_map]
  congr 1

/-- The lazy `.*?` stops, in priority order, after `0, 1, 2, …` consumed
characters, up to the length of the newline-free run at the front of the
input. -/
theorem matchRE_star_dot : ∀ (x : List Char) (f : Nat), x.length + 1 ≤ f →
    matchRE f (RE.star true RE.dot) x =
      (List.range (nlFreeLen x + 1)).map (fun i => (x.drop i, (none : Option (List Char))))
  | [], f, hf => by
    obtain ⟨k, rfl⟩ : ∃ k, f = k + 1 := ⟨f - 1, by omega⟩
    rw [matchRE_star_lazy, matchRE_dot_nil]
    simp [nlFreeLen]
  | c :: t, f, hf => by
    obtain ⟨k, rfl⟩ : ∃ k, f = k + 1 := ⟨f - 1, by
      simp only [List.length_cons] at hf
      omega⟩
    have hk : t.length + 1 ≤ k := by
      simp only [List.length_cons] at hf
      omega
    rw [matchRE_star_lazy, matchRE_dot_cons c t k (by omega)]
    by_cases hc : c = '\n'
    · rw [if_pos hc]
      rw [show nlFreeLen (c :: t) = 0 from by rw [nlFreeLen, if_pos hc]]
      simp [List.range_succ]
    · rw [if_neg hc]
      have hfil : [(t, (none : Option (List Char)))].filter
          (fun p => p.1.length < (c :: t).length) = [(t, none)] := by
        simp
      rw [hfil]
      simp only [List.flatMap_cons, List.flatMap_nil, List.append_nil,
        ocomb_none, Prod.mk.eta, List.map_id, List.map_id']
      rw [matchRE_star_dot t k hk]
      rw [show nlFreeLen (c :: t) = nlFreeLen t + 1 from by rw [nlFreeLen, if_neg hc]]
      exact cons_map_range_drop c t (nlFreeLen t)

theorem matchRE_close (u : List Char) (f : Nat) (hf : 2 ≤ f) :
    matchRE f (RE.cat (RE.ch ']') RE.eps) u =
      if u.head? = some ']' then [(u.tail, none)] else [] := by
  obtain ⟨g, rfl⟩ : ∃ g, f = g + 1 + 1 := ⟨f - 2, by omega⟩
  rw [matchRE_cat]
  cases u with
  | nil =>
    rw [matchRE_ch_nil ']' _ (by omega)]
    simp
  | cons d t =>
    rw [matchRE_ch_cons ']' d t _ (by omega)]
    by_cases hd : d = ']'
    · subst hd
      rw [if_pos rfl]
      simp [matchRE_eps, ocomb_none]
    · rw [if_neg hd]
      simp [hd]

theorem hasTagClose_iff : ∀ (x : List Char),
    hasTagClose x = true ↔ ∃ i, i ≤ nlFreeLen x ∧ (x.drop i).head? = some ']'
  | [] => by
    rw [hasTagClose]
    simp [nlFreeLen]
  | c :: t => by
    by_cases hc : c = ']'
    · subst hc
      rw [hasTagClose, if_pos rfl]
      exact ⟨fun _ => ⟨0, Nat.zero_le _, rfl⟩, fun _ => rfl⟩
    · by_cases hn : c = '\n'
      · rw [hasTagClose, if_neg hc, if_pos hn]
        rw [show nlFreeLen (c :: t) = 0 from by rw [nlFreeLen, if_pos hn]]
        constructor
        · intro h
          exact absurd h (by decide)
        · rintro ⟨i, hi, h⟩
          have hi0 : i = 0 := Nat.le_zero.1 hi
          rw [hi0, List.drop_zero, List.head?_cons] at h
          exact absurd (Option.some.inj h) hc
      · rw [hasTagClose, if_neg hc, if_neg hn]
        rw [show nlFreeLen (c :: t) = nlFreeLen t + 1 from by rw [nlFreeLen, if_neg hn]]
        rw [hasTagClose_iff t]
        constructor
        · rintro ⟨i, hi, h⟩
          refine ⟨i + 1, by omega, ?_⟩
          rw [List.drop_succ_cons]
          exact h
        · rintro ⟨i, hi, h⟩
          cases i with
          | zero =>
            rw [List.drop_zero, List.head?_cons] at h
            exact absurd (Option.some.inj h) hc
          | succ j =>
            rw [List.drop_succ_cons] at h
            exact ⟨j, by omega, h⟩

theorem flatMap_ne_nil_iff {α β : Type} (L : List α) (g : α → List β) :
    (L.flatMap g ≠ []) ↔ ∃ a ∈ L, g a ≠ [] := by
  induction L with
  | nil => simp
  | cons x xs ih =>
    rw [List.flatMap_cons]
    by_cases hx : g x = []
    · rw [hx, List.nil_append, ih]
      constructor
      · rintro ⟨a, ha, hga⟩
        exact ⟨a, List.mem_cons_of_mem x ha, hga⟩
      · rintro ⟨a, ha, hga⟩
        rcases List.mem_cons.1 ha with rfl | ha2
        · exact absurd hx hga
        · exact ⟨a, ha2, hga⟩
    · constructor
      · intro _
        exact ⟨x, List.mem_cons_self x xs, hx⟩
      · intro _ hcontra
        exact hx (List.append_eq_nil.1 hcontra).1

theorem flatMap_singleton_id {α : Type} (L : List α) : (L.flatMap fun a => [a]) = L := by
  induction L with
  | nil => rfl
  | cons x xs ih => rw [List.flatMap_cons, ih, List.singleton_append]

/-- The tail regex `(.*?)\]` matches a prefix of `x` exactly when a
closing `]` occurs in `x` before any newline. -/
theorem matchRE_tgroup_ne (x : List Char) (f : Nat) (hf : x.length + 4 ≤ f) :
    (matchRE f tgRE x ≠ []) ↔ hasTagClose x = true := by
  obtain ⟨g, rfl⟩ : ∃ g, f = g + 1 + 1 + 1 + 1 := ⟨f - 4, by omega⟩
  rw [tgRE]
  rw [matchRE_cat]
  rw [matchRE_group_unfold]
  rw [matchRE_cat]
  rw [matchRE_star_dot x (g + 1) (by omega)]
  simp only [matchRE_eps]
  simp only [List.map_cons, List.map_nil, ocomb_none_right, Prod.mk.eta]
  rw [flatMap_singleton_id]
  rw [List.map_map]
  rw [flatMap_ne_nil_iff]
  have hcl : ∀ u, matchRE (g + 1 + 1 + 1) (RE.cat (RE.ch ']') RE.eps) u =
      if u.head? = some ']' then [(u.tail, none)] else [] :=
    fun u => matchRE_close u _ (by omega)
  simp only [List.mem_map, List.mem_range, exists_exists_and_eq_and, Function.comp,
    hcl, ne_eq, List.map_eq_nil_iff]
  rw [hasTagClose_iff x]
  constructor
  · rintro ⟨i, hi, h⟩
    by_cases hh : (x.drop i).head? = some ']'
    · exact ⟨i, by omega, hh⟩
    · rw [if_neg hh] at h
      exact absurd rfl h
  · rintro ⟨i, hi, h⟩
    refine ⟨i, by omega, ?_⟩
    rw [if_pos h]
    simp

theorem listing_core_shape (s : List Char) :
    RE.cat (RE.ch '[') (litChain s (RE.cat (RE.ch ',') tgRE)) =
      litChain ('[' :: (s ++ [','])) tgRE := by
  simp [litChain, litChain_append]

theorem drop_succ_eq_tail_drop (n : Nat) (w : List Char) :
    w.drop (n + 1) = w.tail.drop n := by
  cases w with
  | nil => simp
  | cons c t => rw [List.drop_succ_cons, List.tail_cons]

theorem listingHit_eq_true (u key : List Char) :
    listingHit u key = true ↔
      (u.isPrefixOf key = true ∧ hasTagClose (key.drop u.length) = true) := by
  rw [listingHit, Bool.and_eq_true]

theorem listingHit_cons_slash (u key : List Char) :
    listingHit ('/' :: u) key = true ↔
      (key.head? = some '/' ∧ listingHit u key.tail = true) := by
  rw [listingHit_eq_true, listingHit_eq_true, cons_isPrefixOf_iff]
  rw [show ('/' :: u).length = u.length + 1 from by rw [List.length_cons]]
  rw [drop_succ_eq_tail_drop]
  constructor
  · rintro ⟨⟨h1, h2⟩, h3⟩
    exact ⟨h1, h2, h3⟩
  · rintro ⟨h1, h2, h3⟩
    exact ⟨⟨h1, h2⟩, h3⟩

theorem listingHit_append (xs u key : List Char) :
    listingHit (xs ++ u) key = true ↔
      (xs.isPrefixOf key = true ∧ listingHit u (key.drop xs.length) = true) := by
  rw [listingHit_eq_true, listingHit_eq_true]
  rw [isPrefixOf_append_expand xs u key, List.length_append, ← List.drop_drop]
  rw [Bool.and_eq_true, and_assoc]

theorem matchRE_litChain_tg_ne (cl w : List Char) (f : Nat)
    (hb : cl.length + w.length + 5 ≤ f) :
    (matchRE f (litChain cl tgRE) w ≠ []) ↔ listingHit cl w = true := by
  obtain ⟨g, rfl⟩ : ∃ g, f = cl.length + g := ⟨f - cl.length, by omega⟩
  rw [matchRE_litChain cl tgRE w g (by omega)]
  rw [ite_ne_nil]
  rw [matchRE_tgroup_ne (w.drop cl.length) g (by
    simp only [List.length_drop]
    omega)]
  rw [listingHit_eq_true]

theorem matchRE_optSlash_litTG_ne (cl w : List Char) (g : Nat)
    (hg : cl.length + w.length + 5 ≤ g + 1 + 1) :
    (matchRE (g + 1 + 1 + 1)
        (RE.cat (RE.opt false (RE.ch '/')) (litChain cl tgRE)) w ≠ []) ↔
      (listingHit cl w = true ∨ listingHit ('/' :: cl) w = true) := by
  rw [matchRE_cat_optSlash]
  rw [ne_eq, List.append_eq_nil, not_and_or, ← ne_eq, ← ne_eq]
  rw [ite_ne_nil]
  rw [matchRE_litChain_tg_ne cl w.tail (g + 1 + 1) (by
      have ht : w.tail.length ≤ w.length := by
        cases w <;> simp
      omega),
    matchRE_litChain_tg_ne cl w (g + 1 + 1) hg]
  rw [listingHit_cons_slash cl w]
  constructor
  · rintro (⟨hH, hT⟩ | hB)
    · exact Or.inr ⟨hH, hT⟩
    · exact Or.inl hB
  · rintro (hB | ⟨hH, hT⟩)
    · exact Or.inr hB
    · exact Or.inl ⟨hH, hT⟩

theorem matchTop_listingAST_ne (p s key : List Char) :
    (matchTop (listingAST p s) key ≠ []) ↔
      (listingHit (p ++ '[' :: (s ++ [','])) key = true ∨
       listingHit (p ++ '/' :: '[' :: (s ++ [','])) key = true ∨
       listingHit ('/' :: (p ++ '[' :: (s ++ [',']))) key = true ∨
       listingHit ('/' :: (p ++ '/' :: '[' :: (s ++ [',']))) key = true) := by
  have hsz : sizeRE (listingAST p s) = 2 * p.length + 2 * s.length + 19 := by
    simp [listingAST, tgRE, sizeRE, sizeRE_litChain, List.length_append, List.length_cons]
    omega
  have h1m : sizeRE (listingAST p s) ≤
      (key.length + 2) * sizeRE (listingAST p s) :=
    Nat.le_mul_of_pos_left _ (by omega)
  have h2m : (key.length + 2) * (sizeRE (listingAST p s) + 1) =
      (key.length + 2) * sizeRE (listingAST p s) + (key.length + 2) := by ring
  have hFbig : p.length + s.length + key.length + 15 ≤
      (key.length + 2) * (sizeRE (listingAST p s) + 1) := by
    omega
  obtain ⟨g, hgF⟩ : ∃ g, (key.length + 2) * (sizeRE (listingAST p s) + 1) =
      g + 1 + 1 + 1 := ⟨(key.length + 2) * (sizeRE (listingAST p s) + 1) - 3, by omega⟩
  have hgbig : p.length + s.length + key.length + 12 ≤ g := by omega
  rw [matchTop, hgF]
  rw [show listingAST p s = RE.cat (RE.opt false (RE.ch '/'))
      (litChain p (RE.cat (RE.opt false (RE.ch '/'))
        (litChain ('[' :: (s ++ [','])) tgRE))) from by
    rw [listingAST, listing_core_shape]]
  rw [matchRE_cat_optSlash]
  obtain ⟨f1, hf1⟩ : ∃ f1, g + 1 + 1 = p.length + f1 := ⟨g + 2 - p.length, by omega⟩
  have hf1pos : 1 ≤ f1 := by omega
  rw [hf1, matchRE_litChain p _ key.tail f1 hf1pos, matchRE_litChain p _ key f1 hf1pos]
  obtain ⟨g2, hg2⟩ : ∃ g2, f1 = g2 + 1 + 1 + 1 := ⟨f1 - 3, by omega⟩
  have hb1 : ('[' :: (s ++ [','])).length + (key.tail.drop p.length).length + 5 ≤
      g2 + 1 + 1 := by
    have ht : key.tail.length ≤ key.length := by
      cases key <;> simp
    simp only [List.length_cons, List.length_append, List.length_nil, List.length_drop]
    omega
  have hb2 : ('[' :: (s ++ [','])).length + (key.drop p.length).length + 5 ≤
      g2 + 1 + 1 := by
    simp only [List.length_cons, List.length_append, List.length_nil, List.length_drop]
    omega
  rw [hg2]
  have h1 := matchRE_optSlash_litTG_ne ('[' :: (s ++ [','])) (key.tail.drop p.length) g2 hb1
  have h2 := matchRE_optSlash_litTG_ne ('[' :: (s ++ [','])) (key.drop p.length) g2 hb2
  rw [ne_eq, List.append_eq_nil, not_and_or, ← ne_eq, ← ne_eq]
  rw [ite_ne_nil, ite_ne_nil, ite_ne_nil]
  rw [h1, h2]
  rw [listingHit_cons_slash (p ++ '[' :: (s ++ [','])) key,
    listingHit_cons_slash (p ++ '/' :: '[' :: (s ++ [','])) key,
    listingHit_append p ('[' :: (s ++ [','])) key,
    listingHit_append p ('/' :: '[' :: (s ++ [','])) key,
    listingHit_append p ('[' :: (s ++ [','])) key.tail,
    listingHit_append p ('/' :: '[' :: (s ++ [','])) key.tail]
  constructor
  · rintro (⟨hH, hPT, hA1 | hA2⟩ | ⟨hPK, hB1 | hB2⟩)
    · exact Or.inr (Or.inr (Or.inl ⟨hH, hPT, hA1⟩))
    · exact Or.inr (Or.inr (Or.inr ⟨hH, hPT, hA2⟩))
    · exact Or.inl ⟨hPK, hB1⟩
    · exact Or.inr (Or.inl ⟨hPK, hB2⟩)
  · rintro (⟨hPK, hB1⟩ | ⟨hPK, hB2⟩ | ⟨hH, hPT, hA1⟩ | ⟨hH, hPT, hA2⟩)
    · exact Or.inr ⟨hPK, Or.inl hB1⟩
    · exact Or.inr ⟨hPK, Or.inr hB2⟩
    · exact Or.inl ⟨hH, hPT, Or.inl hA1⟩
    · exact Or.inl ⟨hH, hPT, Or.inr hA2⟩

/-- Claim C3, amended: in both operations the path prefix — and, in
lookup mode, the version — are matched literally, because both pass
through `regexp.QuoteMeta`, and so is a slug free of regex
metacharacters; but the slug is interpolated into both patterns
unescaped, so a slug containing a regex metacharacter is interpreted as
regex syntax rather than literal text (see the counterexample).  For
every metacharacter-free slug: the prefix match of `GetLatestProductFile`
holds exactly when the key is, up to an optional leading slash and an
optional slash after the trimmed path, the literal text
`<trimmed-path>[<slug>,<version>]` followed by anything; and the listing
pattern of `GetAllProductVersions` recognizes a key exactly when it is,
up to the same optional slashes, the literal text `<trimmed-path>[<slug>,`
followed by a version capture closed by a literal `]`. -/
theorem c3_amended_prefix_version_literal (path slug version key : String)
    (hs : regexSafe slug = true) :
    (lookupMatchB path slug version key = specLookupLiteral path slug version key) ∧
    ((extractVersion path slug key).isSome = specListingLiteral path slug key) := by
  constructor
  · have hc := compile_lookup path.data slug.data version.data hs
    rw [lookupMatchB, hc]
    rw [Bool.eq_iff_iff]
    show matchB (lookupAST (trimSlashes path.data) slug.data version.data) key.data = true ↔ _
    rw [matchB_lookupAST_iff]
    simp only [specLookupLiteral, Bool.or_eq_true]
    tauto
  · have hc := compile_listing path.data slug.data hs
    rw [extractVersion, hc]
    rw [Bool.eq_iff_iff]
    have hiso : ((some (listingAST (trimSlashes path.data) slug.data)).bind (fun r =>
        ((matchTop r key.data).head?).map (fun pr => String.mk (pr.2.getD [])))).isSome =
          true ↔
        matchTop (listingAST (trimSlashes path.data) slug.data) key.data ≠ [] := by
      show (((matchTop (listingAST (trimSlashes path.data) slug.data) key.data).head?).map
        (fun pr => String.mk (pr.2.getD []))).isSome = true ↔ _
      generalize matchTop (listingAST (trimSlashes path.data) slug.data) key.data = L
      cases L <;> simp
    rw [hiso]
    rw [matchTop_listingAST_ne]
    simp only [specListingLiteral, Bool.or_eq_true]
    tauto

theorem c3_witness :
    (lookupMatchB "a+b" "db" "1.0+x" "a+b/[db,1.0+x]file.tgz" =
      specLookupLiteral "a+b" "db" "1.0+x" "a+b/[db,1.0+x]file.tgz") ∧
    ((extractVersion "a+b" "db" "a+b/[db,1.0+x]file.tgz").isSome =
      specListingLiteral "a+b" "db" "a+b/[db,1.0+x]file.tgz") :=
  c3_amended_prefix_version_literal "a+b" "db" "1.0+x" "a+b/[db,1.0+x]file.tgz" (by decide)

/-- Claim C3 as stated is false on the code: the slug is interpolated
into the pattern without escaping, so a regex metacharacter in the slug
does not match only itself.  With slug `a.c`, the metacharacter `.`
matches the `X` of the key `[aXc,1.0]file.tgz`: the prefix matcher
accepts a key that does not contain the literal slug (the spec-side
literal check rejects it), and `GetLatestProductFile` resolves that key. -/
theorem c3_counterexample :
    lookupMatchB "" "a.c" "1.0" "[aXc,1.0]file.tgz" = true ∧
    specLookupLiteral "" "a.c" "1.0" "[aXc,1.0]file.tgz" = false ∧
    getLatestProductFile ⟨"", ""⟩ (ListOutcome.keys ["[aXc,1.0]file.tgz"])
        "a.c" "1.0" "*" = some (Except.ok ⟨"[aXc,1.0]file.tgz"⟩) := by
  refine ⟨by decide, by decide, by decide⟩

end OmS3
